import Mathlib

/-!
Verification of the tree-construction core of `gnf/builder.py`.

The Python source is shallowly embedded as follows:

* Python strings are `String`, manipulated through their `List Char` data.
* `x.split(sep)` on a two-character separator `"->"` is `splitOnArrow`
  (left-to-right, non-overlapping splitting), and on one-character
  separators `'|'`/`'='` it is `splitOnChar`.
* `x.replace(' ', '')` removes every space character: `List.filter (· ≠ ' ')`.
* anytree node objects live in an arena `heap : List GNode`; a node object
  is identified by its index, the registry dictionary `nodes` maps a name
  to an index.  anytree keeps, for every node, a parent pointer and an
  ordered children list; assigning `node.parent` first checks for loops
  (`LoopError`), is a no-op when the parent is unchanged, and otherwise
  detaches the node from its previous parent's children and appends it to
  the new parent's children.
* Python exceptions are the error side of `Except PyErr`; the constructor
  records the kind of exception and the raise site or payload.
* `anytree.LevelOrderIter` iterates level by level over the children
  lists; it is embedded as `traverse_tree`, a fueled level iteration
  (fuel `heap.length + 1`, enough for every acyclic heap).
-/

/-- Python exception values raised by the builder, by kind and site/payload. -/
inductive PyErr where
  | indexError (site : String)
  | keyError (key : String)
  | valueError (msg : String)
  | loopError
deriving DecidableEq, Repr

/-- One anytree node object: name, structural links, and the attributes
`set_node` may attach in pass 2 (`none` models a missing attribute). -/
structure GNode where
  name : String
  parent : Option Nat := none
  children : List Nat := []
  label : Option String := none
  module : Option String := none
  params : Option String := none
  kwargs : Option (List (String × String)) := none
deriving DecidableEq, Repr, Inhabited

/-- Builder state: the `nodes` dictionary (insertion-ordered, name to node id)
and the arena of node objects. -/
structure BState where
  registry : List (String × Nat) := []
  heap : List GNode := []
deriving DecidableEq, Repr, Inhabited

/-- One input row, with the four columns the builder reads. -/
structure Row where
  process : String
  label : String
  module : String
  params : String
deriving DecidableEq, Repr

-- Generic list helpers (positional access and in-place update) ----------------

/-- `l[n]` as an `Option`, by plain recursion. -/
def nthOpt {α : Type} : List α → Nat → Option α
  | [], _ => none
  | a :: _, 0 => some a
  | _ :: r, n + 1 => nthOpt r n

/-- Replace the element at position `n` by `f` of it (no-op out of range). -/
def upd {α : Type} : List α → Nat → (α → α) → List α
  | [], _, _ => []
  | a :: r, 0, f => f a :: r
  | a :: r, n + 1, f => a :: upd r n f

-- Insertion-ordered dictionaries (Python `dict`) ------------------------------

/-- Dictionary lookup: value of the first pair with the given key. -/
def aget {β : Type} : List (String × β) → String → Option β
  | [], _ => none
  | p :: r, k => if p.1 = k then some p.2 else aget r k

/-- Dictionary membership test. -/
def amem {β : Type} : List (String × β) → String → Bool
  | [], _ => false
  | p :: r, k => if p.1 = k then true else amem r k

/-- Overwrite the value at an existing key, keeping its position. -/
def areplace {β : Type} : List (String × β) → String → β → List (String × β)
  | [], _, _ => []
  | p :: r, k, v => if p.1 = k then (k, v) :: areplace r k v else p :: areplace r k v

/-- Python `d[k] = v`: overwrite in place if the key exists, else append. -/
def aset {β : Type} (d : List (String × β)) (k : String) (v : β) : List (String × β) :=
  if amem d k then areplace d k v else d ++ [(k, v)]

-- Data processing functions (`strip_process`, `split_process`, `split_params`)

/-- `strip_process`: `x.replace(' ', '')`, removal of every space character. -/
def strip_process (x : String) : String :=
  String.mk (x.data.filter (fun c => c ≠ ' '))

/-- Left-to-right non-overlapping splitting on the two-character separator
`"->"`, the embedding of Python `x.split('->')`. -/
def splitOnArrow : List Char → List (List Char)
  | [] => [[]]
  | '-' :: '>' :: rest => [] :: splitOnArrow rest
  | c :: rest =>
    match splitOnArrow rest with
    | s :: ss => (c :: s) :: ss
    | [] => [[c]]

/-- Python `'->' in x` (used by pass 1 to skip non-relation rows). -/
def hasArrowL : List Char → Bool
  | [] => false
  | '-' :: '>' :: _ => true
  | _ :: rest => hasArrowL rest

/-- Python `'->' in x` on a `String`. -/
def hasArrow (x : String) : Bool := hasArrowL x.data

/-- `split_process`: `s = x.split('->'); return s[0], s[1]`.  Accessing `s[1]`
raises `IndexError` when there is no `"->"` occurrence. -/
def split_process (x : String) : Except PyErr (String × String) :=
  match splitOnArrow x.data with
  | s0 :: s1 :: _ => .ok (String.mk s0, String.mk s1)
  | _ => .error (.indexError "split_process")

/-- Splitting on a one-character separator, the embedding of Python
`x.split('|')` and `i.split('=')`. -/
def splitOnChar (sep : Char) : List Char → List (List Char)
  | [] => [[]]
  | c :: rest =>
    if c = sep then [] :: splitOnChar sep rest
    else
      match splitOnChar sep rest with
      | s :: ss => (c :: s) :: ss
      | [] => [[c]]

/-- One `key=value` segment of a parameter string: `i.split('=')` then
`i[0].replace(' ', '')` and `i[1].replace(' ', '')`; `i[1]` raises
`IndexError` when the segment has no `'='`. -/
def parseSeg (seg : List Char) : Except PyErr (String × String) :=
  match splitOnChar '=' seg with
  | k :: v :: _ =>
    .ok (String.mk (k.filter (fun c => c ≠ ' ')), String.mk (v.filter (fun c => c ≠ ' ')))
  | _ => .error (.indexError "split_params")

/-- `split_params`: split on `'|'`, split each segment on `'='`, build the
dictionary (last occurrence of a key wins). -/
def split_params (x : String) : Except PyErr (List (String × String)) :=
  (splitOnChar '|' x.data).foldlM
    (fun d seg => (parseSeg seg).map (fun kv => aset d kv.1 kv.2)) []

-- Tree building functions -----------------------------------------------------

/-- `new_node(name)`: append a bare `Generative_Node` to the arena and return
its id.  (It is not registered; both call sites register it themselves.) -/
def new_node (st : BState) (name : String) : BState × Nat :=
  ({ st with heap := st.heap ++ [{ name := name }] }, st.heap.length)

/-- `get_node(nodes, name)`: return the registered node for `name`, creating
and registering a bare node on a miss. -/
def get_node (st : BState) (name : String) : BState × Nat :=
  match aget st.registry name with
  | some i => (st, i)
  | none =>
    let p := new_node st name
    ({ p.1 with registry := aset p.1.registry name p.2 }, p.2)

/-- The parent pointer of the node object at id `i` (none when out of range). -/
def parentOf (heap : List GNode) (i : Nat) : Option Nat :=
  match nthOpt heap i with
  | some n => n.parent
  | none => none

/-- The ordered children list of the node object at id `i`. -/
def childrenOf (heap : List GNode) (i : Nat) : List Nat :=
  match nthOpt heap i with
  | some n => n.children
  | none => []

/-- Does the ancestor walk starting at `i` (inclusive) meet `t` within `fuel`
steps?  Embeds anytree's `__check_loop` test over `iter_path_reverse`. -/
def chainMem (heap : List GNode) : Nat → Nat → Nat → Bool
  | 0, _, _ => false
  | fuel + 1, i, t =>
    if i = t then true
    else
      match parentOf heap i with
      | some p => chainMem heap fuel p t
      | none => false

/-- anytree's `__detach`: remove `c` from its current parent's children list
(no-op for a parentless node). -/
def detachHeap (heap : List GNode) (c : Nat) : List GNode :=
  match parentOf heap c with
  | some o => upd heap o (fun n => { n with children := n.children.filter (fun x => x ≠ c) })
  | none => heap

/-- anytree's `node.parent = value` assignment on the arena: no-op when the
parent is unchanged, `LoopError` when `c` is on the ancestor path of `p`,
otherwise detach `c` from its old parent's children, set its parent pointer,
and append it to `p`'s children. -/
def setParent (heap : List GNode) (c p : Nat) : Except PyErr (List GNode) :=
  if parentOf heap c = some p then .ok heap
  else if chainMem heap (heap.length + 1) p c then .error .loopError
  else
    .ok (upd (upd (detachHeap heap c) c (fun n => { n with parent := some p }))
      p (fun n => { n with children := n.children ++ [c] }))

/-- Pass 1 of `build_tree` on one row: skip rows whose `process` is empty or
has no `"->"`; a root declaration (`s1` empty) registers a fresh standalone
node under `s2`; otherwise get-or-create both sides and link the child. -/
def pass1Row (st : BState) (row : Row) : Except PyErr BState :=
  if row.process = "" || !(hasArrow row.process) then .ok st
  else
    match split_process (strip_process row.process) with
    | .error e => .error e
    | .ok (s1, s2) =>
      if s1 = "" then
        let p := new_node st s2
        .ok { p.1 with registry := aset p.1.registry s2 p.2 }
      else
        let q := get_node st s1
        let r := get_node q.1 s2
        match setParent r.1.heap r.2 q.2 with
        | .ok h => .ok { r.1 with heap := h }
        | .error e => .error e

/-- Pass 2 of `build_tree` on one row: re-split the relation (raising on rows
without `"->"`), look the child up in the registry (`KeyError` on a miss),
parse `params`, inject `child` and, for non-roots, `parent`, and overwrite the
child node's `label`, `module`, `params` and `kwargs`. -/
def pass2Row (st : BState) (row : Row) : Except PyErr BState :=
  match split_process (strip_process row.process) with
  | .error e => .error e
  | .ok s12 =>
    match aget st.registry s12.2 with
    | none => .error (.keyError s12.2)
    | some i =>
      match nthOpt st.heap i with
      | none => .error (.keyError s12.2)
      | some node =>
        match split_params row.params with
        | .error e => .error e
        | .ok kw0 =>
          let kw1 := aset kw0 "child" node.name
          match node.parent with
          | none =>
            .ok { st with heap := upd st.heap i (fun n =>
              { n with label := some row.label, module := some row.module,
                       params := some row.params, kwargs := some kw1 }) }
          | some ip =>
            match nthOpt st.heap ip with
            | none => .error (.keyError "parent")
            | some pnode =>
              let kw2 := aset kw1 "parent" pnode.name
              .ok { st with heap := upd st.heap i (fun n =>
                { n with label := some row.label, module := some row.module,
                         params := some row.params, kwargs := some kw2 }) }

/-- Both passes of `build_tree`, before root validation. -/
def buildPasses (rows : List Row) : Except PyErr BState :=
  match rows.foldlM pass1Row {} with
  | .error e => .error e
  | .ok st => rows.foldlM pass2Row st

/-- The rootless registered nodes, in registry order:
`[node for process, node in nodes.items() if node.is_root]`. -/
def rootsOf (st : BState) : List Nat :=
  (st.registry.map (fun p => p.2)).filter (fun i => parentOf st.heap i = none)

/-- Root validation: more than one root raises
`ValueError("Multiple roots detected...")`; otherwise `roots[0]` is returned,
raising `IndexError` when there is no root at all. -/
def validate_root (st : BState) : Except PyErr (Nat × BState) :=
  let roots := rootsOf st
  if roots.length > 1 then .error (.valueError "Multiple roots detected...")
  else
    match roots with
    | [] => .error (.indexError "roots")
    | r :: _ => .ok (r, st)

/-- `build_tree(df)`: pass 1, pass 2, then root validation; the returned tree
handle is the root id together with the arena it lives in. -/
def build_tree (rows : List Row) : Except PyErr (Nat × BState) :=
  match buildPasses rows with
  | .error e => .error e
  | .ok st => validate_root st

-- Traversal (`traverse_tree` = `anytree.LevelOrderIter`) ----------------------

/-- All children of the nodes of one level, in order. -/
def nextLevel (heap : List GNode) (lvl : List Nat) : List Nat :=
  lvl.flatMap (childrenOf heap)

/-- Fueled level-by-level iteration: emit the current level, then recurse on
the concatenation of its children lists, stopping at an empty level. -/
def levelIter (heap : List GNode) : Nat → List Nat → List Nat
  | 0, _ => []
  | fuel + 1, lvl => if lvl = [] then [] else lvl ++ levelIter heap fuel (nextLevel heap lvl)

/-- `traverse_tree(tree)`: the level-order sequence of node ids from the root.
Fuel `heap.length + 1` covers every level of an acyclic arena. -/
def traverse_tree (st : BState) (root : Nat) : List Nat :=
  levelIter st.heap (st.heap.length + 1) [root]

-- Specification-side notions used by the theorems --------------------------

/-- Does the ancestor walk from `i` reach a parentless node within `fuel`
steps? -/
def termB (heap : List GNode) : Nat → Nat → Bool
  | 0, _ => false
  | fuel + 1, i =>
    match parentOf heap i with
    | none => true
    | some p => termB heap fuel p

/-- The number of ancestor steps from `i` to its root, when the walk ends
within the fuel. -/
def depthB (heap : List GNode) : Nat → Nat → Option Nat
  | 0, _ => none
  | fuel + 1, i =>
    match parentOf heap i with
    | none => some 0
    | some p => (depthB heap fuel p).map (fun d => d + 1)

/-- The ancestor walk from `i` (inclusive), cut off at the fuel. -/
def chainL (heap : List GNode) : Nat → Nat → List Nat
  | 0, _ => []
  | fuel + 1, i =>
    i :: (match parentOf heap i with
          | some p => chainL heap fuel p
          | none => [])

/-- `k`-fold application of `nextLevel`. -/
def iterNext (heap : List GNode) : Nat → List Nat → List Nat
  | 0, lvl => lvl
  | k + 1, lvl => iterNext heap k (nextLevel heap lvl)

/-- The list of levels `levelIter` walks through, cut off at the fuel. -/
def levelsFrom (heap : List GNode) : Nat → List Nat → List (List Nat)
  | 0, _ => []
  | fuel + 1, lvl => if lvl = [] then [] else lvl :: levelsFrom heap fuel (nextLevel heap lvl)

/-- A level decomposition: each level is the concatenated children of the
previous one, and the last level is childless. -/
def levelsOK (heap : List GNode) : List (List Nat) → Prop
  | [] => True
  | [l] => nextLevel heap l = []
  | l :: l2 :: r => l2 = nextLevel heap l ∧ levelsOK heap (l2 :: r)

/-- Registry soundness: every registered id denotes a live node carrying the
registered name. -/
def RegOk (st : BState) : Prop :=
  ∀ pr ∈ st.registry, ∃ node, nthOpt st.heap pr.2 = some node ∧ node.name = pr.1

/-- The structural invariant of every state `build_tree` reaches: ancestor
walks terminate, parent pointers are live, children lists are backed by
parent pointers, and the registry is sound. -/
structure TreeInv (st : BState) : Prop where
  wf : ∀ i, i < st.heap.length → ∃ f, termB st.heap f i = true
  pir : ∀ i p, parentOf st.heap i = some p → p < st.heap.length
  cons : ∀ i x, x ∈ childrenOf st.heap i → parentOf st.heap x = some i
  reg : RegOk st

/-- The kwargs contract of claim C2 for one node: a non-root's `kwargs` maps
`"parent"` to its parent's name and `"child"` to its own name. -/
def kwargsAligned (heap : List GNode) (node : GNode) : Prop :=
  ∀ p, node.parent = some p →
    ∃ kw pnode, node.kwargs = some kw ∧ nthOpt heap p = some pnode ∧
      aget kw "parent" = some pnode.name ∧ aget kw "child" = some node.name

/-- The child name pass 2 derives from a row, when the split succeeds. -/
def pass2child (row : Row) : Option String :=
  match split_process (strip_process row.process) with
  | .ok s => some s.2
  | .error _ => none

/-- `name` is registered and its node has a parent link. -/
def Linked (st : BState) (name : String) : Prop :=
  ∃ i node p, aget st.registry name = some i ∧ nthOpt st.heap i = some node ∧
    node.parent = some p

/-- `t` is `l` with extra space characters inserted anywhere. -/
inductive InsertSpaces : List Char → List Char → Prop
  | nil : InsertSpaces [] []
  | keep (c : Char) {l t : List Char} : InsertSpaces l t → InsertSpaces (c :: l) (c :: t)
  | space {l t : List Char} : InsertSpaces l t → InsertSpaces l (' ' :: t)

/-- Does every non-root node of the tree returned by `build_tree` (the nodes
its traversal reaches) satisfy the kwargs contract?  Decidable phrasing of
claim C2 as stated. -/
def allTreeKwargsAligned (rows : List Row) : Bool :=
  match build_tree rows with
  | .error _ => true
  | .ok (root, st) =>
    (traverse_tree st root).all (fun i =>
      match nthOpt st.heap i with
      | none => true
      | some node =>
        match node.parent with
        | none => true
        | some p =>
          match node.kwargs, nthOpt st.heap p with
          | some kw, some pnode =>
            aget kw "parent" = some pnode.name && aget kw "child" = some node.name
          | _, _ => false)

-- Concrete inputs used by witnesses and counterexamples ---------------------

/-- A single root declaration row; `build_tree` succeeds on it. -/
def rows1 : List Row := [⟨"-> A", "A", "m", "k=v"⟩]

/-- Spec example: a root and one child with parameters. -/
def rowsW : List Row := [⟨"-> A", "A", "m", "k=1"⟩, ⟨"A -> B", "B1", "m", "label=B1"⟩]

/-- `B` is redeclared under a new parent `X`; `A -> X` keeps the build
single-rooted. -/
def rows4 : List Row :=
  [ ⟨"A -> B", "B", "m", "k=1"⟩,
    ⟨"X -> B", "B", "m", "k=2"⟩,
    ⟨"A -> X", "X", "m", "k=3"⟩ ]

/-- The third row's `process` has no `"->"` occurrence (there is a space
between `-` and `>`), yet space removal re-creates one. -/
def rows6 : List Row :=
  [ ⟨"-> R", "R", "m", "k=0"⟩,
    ⟨"R -> B", "B", "m", "k=1"⟩,
    ⟨"R- >B", "B2", "m", "k=2"⟩ ]

/-- The root-shortcut rows of claim C9: `-> A` replaces the registered `A`
while the original `A` node stays linked under `R`. -/
def rows9 : List Row :=
  [ ⟨"-> R", "R", "m", "w=a"⟩,
    ⟨"R -> A", "A", "m", "w=a"⟩,
    ⟨"A -> C", "C", "m", "w=a"⟩,
    ⟨"-> A", "A", "m", "w=a"⟩,
    ⟨"R -> A", "A", "m", "w=a"⟩ ]

/-- A state that already has a node registered under `"B"`, to exhibit the
root-shortcut overwrite. -/
def stC3 : BState := { registry := [("B", 0)], heap := [{ name := "B", children := [1] }, { name := "C", parent := some 0 }] }

/-- A row whose `process` has no `"->"` even after space removal. -/
def rows6b : List Row := [⟨"-> R", "R", "m", "k=0"⟩, ⟨"nope", "n", "m", "k=1"⟩]

/-- The state pass 1 alone produces (meaningful when it succeeds). -/
def pass1State (rows : List Row) : BState :=
  match rows.foldlM pass1Row {} with
  | .ok st => st
  | .error _ => {}

/-- The state both passes produce (meaningful when `buildPasses` succeeds). -/
def passedState (rows : List Row) : BState :=
  match buildPasses rows with
  | .ok st => st
  | .error _ => {}

/-- The state inside a successful `build_tree` result. -/
def builtState (rows : List Row) : BState :=
  match build_tree rows with
  | .ok p => p.2
  | .error _ => {}

/-- The root id of a successful `build_tree` result. -/
def builtRoot (rows : List Row) : Nat :=
  match build_tree rows with
  | .ok p => p.1
  | .error _ => 0

deriving instance DecidableEq for Except

-- Generic lemmas about the list and dictionary helpers ------------------------

theorem nthOpt_some_lt {α : Type} {l : List α} {i : Nat} {a : α}
    (h : nthOpt l i = some a) : i < l.length := by
  induction l generalizing i with
  | nil => cases h
  | cons b r ih =>
    cases i with
    | zero => simp
    | succ j => exact Nat.succ_lt_succ (ih h)

theorem nthOpt_append_left {α : Type} {l l2 : List α} {i : Nat} (h : i < l.length) :
    nthOpt (l ++ l2) i = nthOpt l i := by
  induction l generalizing i with
  | nil => cases h
  | cons b r ih =>
    cases i with
    | zero => rfl
    | succ j => exact ih (Nat.lt_of_succ_lt_succ h)

theorem nthOpt_append_self {α : Type} (l : List α) (a : α) :
    nthOpt (l ++ [a]) l.length = some a := by
  induction l with
  | nil => rfl
  | cons b r ih => exact ih

theorem nthOpt_upd {α : Type} (l : List α) (i j : Nat) (f : α → α) :
    nthOpt (upd l i f) j = if j = i then (nthOpt l j).map f else nthOpt l j := by
  induction l generalizing i j with
  | nil => cases i <;> cases j <;> simp [upd, nthOpt]
  | cons b r ih =>
    cases i <;> cases j <;> simp [upd, nthOpt, ih]

theorem upd_length {α : Type} (l : List α) (i : Nat) (f : α → α) :
    (upd l i f).length = l.length := by
  induction l generalizing i with
  | nil => rfl
  | cons b r ih => cases i <;> simp [upd, ih]

theorem aget_mem {β : Type} {d : List (String × β)} {k : String} {v : β}
    (h : aget d k = some v) : (k, v) ∈ d := by
  induction d with
  | nil => cases h
  | cons p r ih =>
    by_cases hp : p.1 = k
    · simp [aget, hp] at h
      have hkv : (k, v) = p := by
        cases p
        simp at hp h
        rw [hp, h]
      rw [hkv]
      exact List.mem_cons_self _ _
    · simp [aget, hp] at h
      exact List.mem_cons_of_mem _ (ih h)

theorem amem_false_aget {β : Type} {d : List (String × β)} {k : String}
    (h : amem d k = false) : aget d k = none := by
  induction d with
  | nil => rfl
  | cons p r ih =>
    by_cases hp : p.1 = k
    · simp [amem, hp] at h
    · simp [amem, hp] at h
      simp [aget, hp, ih h]

theorem amem_false_forall {β : Type} {d : List (String × β)} {k : String}
    (h : amem d k = false) : ∀ pr ∈ d, pr.1 ≠ k := by
  induction d with
  | nil => intro pr hpr; cases hpr
  | cons p r ih =>
    by_cases hp : p.1 = k
    · simp [amem, hp] at h
    · simp [amem, hp] at h
      intro pr hpr
      rcases List.mem_cons.mp hpr with rfl | hpr'
      · exact hp
      · exact ih h pr hpr'

theorem aget_areplace_self {β : Type} {d : List (String × β)} {k : String} (v : β)
    (h : amem d k = true) : aget (areplace d k v) k = some v := by
  induction d with
  | nil => cases h
  | cons p r ih =>
    by_cases hp : p.1 = k
    · simp [areplace, hp, aget]
    · simp [amem, hp] at h
      simp [areplace, hp, aget, ih h]

theorem aget_aset_self {β : Type} (d : List (String × β)) (k : String) (v : β) :
    aget (aset d k v) k = some v := by
  unfold aset
  cases hm : amem d k with
  | true => simp [aget_areplace_self v hm]
  | false =>
    simp only [Bool.false_eq_true, if_false]
    induction d with
    | nil => simp [aget]
    | cons p r ih =>
      by_cases hp : p.1 = k
      · simp [amem, hp] at hm
      · simp [amem, hp] at hm
        simp [aget, hp, ih hm]

theorem aget_areplace_ne {β : Type} (d : List (String × β)) (k k2 : String) (v : β)
    (h : k2 ≠ k) : aget (areplace d k v) k2 = aget d k2 := by
  induction d with
  | nil => rfl
  | cons p r ih =>
    by_cases hp : p.1 = k
    · simp [areplace, hp, aget, Ne.symm h, ih, hp.symm ▸ (Ne.symm h)]
    · simp [areplace, hp, aget, ih]

theorem aget_aset_ne {β : Type} (d : List (String × β)) (k k2 : String) (v : β)
    (h : k2 ≠ k) : aget (aset d k v) k2 = aget d k2 := by
  unfold aset
  cases hm : amem d k with
  | true => simp [aget_areplace_ne d k k2 v h]
  | false =>
    simp only [Bool.false_eq_true, if_false]
    induction d with
    | nil => simp [aget, Ne.symm h]
    | cons p r ih =>
      by_cases hp : p.1 = k
      · simp [amem, hp] at hm
      · simp [amem, hp] at hm
        by_cases hp2 : p.1 = k2 <;> simp [aget, hp2, ih hm]

theorem mem_areplace {β : Type} {d : List (String × β)} {k : String} {v : β} {pr : String × β}
    (h : pr ∈ areplace d k v) : (pr ∈ d ∧ pr.1 ≠ k) ∨ pr = (k, v) := by
  induction d with
  | nil => cases h
  | cons p r ih =>
    by_cases hp : p.1 = k
    · simp only [areplace, hp, if_pos] at h
      rcases List.mem_cons.mp h with rfl | h'
      · right; rfl
      · rcases ih h' with ⟨h1, h2⟩ | h2
        · exact Or.inl ⟨List.mem_cons_of_mem _ h1, h2⟩
        · exact Or.inr h2
    · simp only [areplace, hp, if_neg, if_false] at h
      rcases List.mem_cons.mp h with rfl | h'
      · exact Or.inl ⟨List.mem_cons_self _ _, hp⟩
      · rcases ih h' with ⟨h1, h2⟩ | h2
        · exact Or.inl ⟨List.mem_cons_of_mem _ h1, h2⟩
        · exact Or.inr h2

theorem mem_aset {β : Type} {d : List (String × β)} {k : String} {v : β} {pr : String × β}
    (h : pr ∈ aset d k v) : (pr ∈ d ∧ pr.1 ≠ k) ∨ pr = (k, v) := by
  unfold aset at h
  cases hm : amem d k with
  | true => rw [hm, if_pos rfl] at h; exact mem_areplace h
  | false =>
    rw [hm] at h
    simp only [Bool.false_eq_true, if_false] at h
    rcases List.mem_append.mp h with h' | h'
    · exact Or.inl ⟨h', amem_false_forall hm pr h'⟩
    · exact Or.inr (List.mem_singleton.mp h')

-- Lemmas about the relation splitter ------------------------------------------

theorem splitOnArrow_cons (c : Char) (rest : List Char)
    (h : ∀ r2, c = '-' → rest = '>' :: r2 → False) :
    splitOnArrow (c :: rest) =
      match splitOnArrow rest with
      | s :: ss => (c :: s) :: ss
      | [] => [[c]] := by
  rw [splitOnArrow.eq_def]
  split
  · rename_i heq; cases heq
  · rename_i r2 heq
    injection heq with h1 h2
    exact (h r2 h1 h2).elim
  · rename_i heq
    injection heq with h1 h2
    subst h1; subst h2
    rfl

theorem hasArrowL_cons (c : Char) (rest : List Char)
    (h : ∀ r2, c = '-' → rest = '>' :: r2 → False) :
    hasArrowL (c :: rest) = hasArrowL rest := by
  rw [hasArrowL.eq_def]
  split
  · rename_i heq; cases heq
  · rename_i r2 heq
    injection heq with h1 h2
    exact (h r2 h1 h2).elim
  · rename_i heq
    injection heq with h1 h2
    subst h1; subst h2
    rfl

theorem splitOnArrow_ne_nil (l : List Char) : splitOnArrow l ≠ [] := by
  induction l using splitOnArrow.induct with
  | case1 => simp [splitOnArrow]
  | case2 rest ih => simp [splitOnArrow]
  | case3 c rest hpat s ss hrec ih =>
    rw [splitOnArrow_cons c rest hpat, hrec]
    simp
  | case4 c rest hpat hrec ih =>
    rw [splitOnArrow_cons c rest hpat, hrec]
    simp

theorem splitOnArrow_no_arrow (l : List Char) (h : hasArrowL l = false) :
    splitOnArrow l = [l] := by
  induction l using splitOnArrow.induct with
  | case1 => rfl
  | case2 rest ih => simp [hasArrowL] at h
  | case3 c rest hpat s ss hrec ih =>
    rw [hasArrowL_cons c rest hpat] at h
    rw [splitOnArrow_cons c rest hpat, ih h]
  | case4 c rest hpat hrec ih =>
    exact (splitOnArrow_ne_nil rest hrec).elim

theorem splitOnArrow_arrow (l : List Char) (h : hasArrowL l = true) :
    ∃ l0 t, splitOnArrow l = l0 :: splitOnArrow t ∧ l = l0 ++ '-' :: '>' :: t ∧
      hasArrowL l0 = false := by
  induction l using splitOnArrow.induct with
  | case1 => simp [hasArrowL] at h
  | case2 rest ih => exact ⟨[], rest, by rw [splitOnArrow], rfl, rfl⟩
  | case3 c rest hpat s ss hrec ih =>
    rw [hasArrowL_cons c rest hpat] at h
    obtain ⟨l0, t, h1, h2, h3⟩ := ih h
    have hpat2 : ∀ r2, c = '-' → l0 = '>' :: r2 → False := by
      intro r2 hc hl0
      refine hpat (r2 ++ '-' :: '>' :: t) hc ?_
      rw [h2, hl0]
      rfl
    refine ⟨c :: l0, t, ?_, by rw [h2]; rfl, ?_⟩
    · rw [splitOnArrow_cons c rest hpat, h1]
    · rw [hasArrowL_cons c l0 hpat2]
      exact h3
  | case4 c rest hpat hrec ih =>
    exact (splitOnArrow_ne_nil rest hrec).elim

theorem split_process_no_arrow (x : String) (h : hasArrow x = false) :
    split_process x = .error (.indexError "split_process") := by
  unfold split_process
  rw [splitOnArrow_no_arrow x.data h]

-- Claim C5 --------------------------------------------------------------------

/-- C5 counterexample: `split_params` applied to the empty string does not
return an empty mapping. -/
theorem c5_counterexample : split_params "" ≠ .ok [] := by decide

/-- C5 (amended): `split_params` applied to the empty string raises an
`IndexError` — the single empty segment has no `'='`, so `i[1]` fails —
instead of returning an empty mapping. -/
theorem c5_empty_params : split_params "" = .error (.indexError "split_params") := rfl

-- Claim C7 --------------------------------------------------------------------

/-- C7 counterexample: inserting a non-space whitespace character (a tab) into
a relation expression changes its parse, because `strip_process` removes only
the space character. -/
theorem c7_counterexample :
    split_process (strip_process "A\t->B") ≠ split_process (strip_process "A->B") := by
  decide

theorem insertSpaces_filter {l t : List Char} (h : InsertSpaces l t) :
    t.filter (fun c => c ≠ ' ') = l.filter (fun c => c ≠ ' ') := by
  induction h with
  | nil => rfl
  | keep c _ ih =>
    rw [List.filter_cons, List.filter_cons, ih]
  | space _ ih =>
    rw [List.filter_cons]
    have hd : (decide (' ' ≠ ' ')) = false := by decide
    rw [hd]
    simpa using ih

/-- C7 (amended): only the space character is removed before splitting, so a
relation expression parses the same after spaces — not arbitrary whitespace —
are inserted anywhere. -/
theorem c7_space_insensitive (s t : String) (h : InsertSpaces s.data t.data) :
    split_process (strip_process t) = split_process (strip_process s) := by
  unfold strip_process
  rw [insertSpaces_filter h]

/-- C7 witness: `"A -> B"` is `"A->B"` with spaces inserted, and both parse
identically. -/
theorem c7_witness :
    split_process (strip_process "A -> B") = split_process (strip_process "A->B") := by
  have h : InsertSpaces "A->B".data "A -> B".data := by
    show InsertSpaces ['A', '-', '>', 'B'] ['A', ' ', '-', '>', ' ', 'B']
    repeat constructor
  exact c7_space_insensitive "A->B" "A -> B" h

-- Claim C10 -------------------------------------------------------------------

/-- C10: on any string containing `"->"`, `split_process` succeeds and returns
the segment before the first occurrence and the segment between the first and
second occurrence (the whole remainder when `"->"` occurs once); extra
occurrences are ignored, not an error. -/
theorem c10_split_first_occurrence (x : String) (h : hasArrow x = true) :
    ∃ p c : String, split_process x = .ok (p, c) ∧ hasArrowL p.data = false ∧
      ∃ t : List Char, x.data = p.data ++ '-' :: '>' :: t ∧
        ((hasArrowL t = false ∧ c.data = t) ∨
         (hasArrowL c.data = false ∧ ∃ u, t = c.data ++ '-' :: '>' :: u)) := by
  obtain ⟨l0, t, hsp, hdec, hl0⟩ := splitOnArrow_arrow x.data h
  cases hsp2 : splitOnArrow t with
  | nil => exact (splitOnArrow_ne_nil t hsp2).elim
  | cons s1 ss =>
    refine ⟨String.mk l0, String.mk s1, ?_, hl0, t, hdec, ?_⟩
    · unfold split_process
      rw [hsp, hsp2]
    · cases harr : hasArrowL t with
      | false =>
        left
        have := splitOnArrow_no_arrow t harr
        rw [this] at hsp2
        injection hsp2 with h1 h2
        exact ⟨rfl, h1.symm⟩
      | true =>
        right
        obtain ⟨t0, u, hsp3, hdec3, ht0⟩ := splitOnArrow_arrow t harr
        rw [hsp3] at hsp2
        injection hsp2 with h1 h2
        subst h1
        exact ⟨ht0, u, hdec3⟩

/-- C10 witness: `"A->B->C"` splits into `"A"` and `"B"`, the third segment
being ignored. -/
theorem c10_witness :
    ∃ p c : String, split_process "A->B->C" = .ok (p, c) ∧ hasArrowL p.data = false ∧
      ∃ t : List Char, "A->B->C".data = p.data ++ '-' :: '>' :: t ∧
        ((hasArrowL t = false ∧ c.data = t) ∨
         (hasArrowL c.data = false ∧ ∃ u, t = c.data ++ '-' :: '>' :: u)) :=
  c10_split_first_occurrence "A->B->C" (by rfl)

-- Claim C3 --------------------------------------------------------------------

/-- C3: on a relation row whose parent segment is empty (a root declaration),
pass 1 appends a fresh standalone node named `s2` (no parent, no children, no
attributes) and rebinds the registry entry for `s2` to it, leaving every
previously created node object untouched — so a previously registered node of
that name loses its registration while keeping its links. -/
theorem c3_root_shortcut (st : BState) (row : Row) (s2 : String)
    (hne : row.process ≠ "") (ha : hasArrow row.process = true)
    (hsp : split_process (strip_process row.process) = .ok ("", s2)) :
    pass1Row st row =
      .ok { registry := aset st.registry s2 st.heap.length,
            heap := st.heap ++ [{ name := s2 }] } := by
  unfold pass1Row
  rw [hsp]
  simp [hne, ha, new_node]

/-- C3 witness: in a state where `"B"` is registered with a child, the row
`"-> B"` rebinds `"B"` to a fresh bare node while the old node keeps its
links. -/
theorem c3_witness :
    pass1Row stC3 ⟨"-> B", "B", "m", "x=y"⟩ =
      .ok { registry := aset stC3.registry "B" stC3.heap.length,
            heap := stC3.heap ++ [{ name := "B" }] } :=
  c3_root_shortcut stC3 ⟨"-> B", "B", "m", "x=y"⟩ "B" (by decide) (by rfl) (by rfl)

-- Claim C6 --------------------------------------------------------------------

/-- C6 counterexample: the third row of `rows6` has no `"->"` in its `process`
field, yet `build_tree` succeeds, and that row was processed by pass 2 (it
overwrote node `B`'s `params`), refuting that such a row makes the build
fail. -/
theorem c6_counterexample :
    hasArrow "R- >B" = false ∧ (build_tree rows6).toOption.isSome = true ∧
      (nthOpt (builtState rows6).heap 1).map GNode.params = some (some "k=2") := by
  decide

theorem pass2Row_no_arrow (st : BState) (row : Row)
    (h : hasArrow (strip_process row.process) = false) :
    pass2Row st row = .error (.indexError "split_process") := by
  unfold pass2Row
  rw [split_process_no_arrow _ h]

theorem foldlM_pass2_err (rows : List Row) (row : Row) (hmem : row ∈ rows)
    (h : hasArrow (strip_process row.process) = false) :
    ∀ st : BState, ∃ e, List.foldlM pass2Row st rows = .error e := by
  induction rows with
  | nil => cases hmem
  | cons a l ih =>
    intro st
    rw [List.foldlM_cons]
    rcases List.mem_cons.mp hmem with rfl | hmem2
    · rw [pass2Row_no_arrow st row h]
      exact ⟨_, rfl⟩
    · cases ha : pass2Row st a with
      | error e => exact ⟨e, rfl⟩
      | ok st2 =>
        obtain ⟨e, he⟩ := ih hmem2 st2
        exact ⟨e, by rw [show (Except.ok st2 >>= fun s => List.foldlM pass2Row s l) =
          List.foldlM pass2Row st2 l from rfl, he]⟩

/-- C6 (amended): pass 2 iterates every row, including rows pass 1 skipped;
a row whose `process` still lacks `"->"` after space removal makes the whole
build fail (nothing skips it).  A row lacking `"->"` only before space removal
can instead be processed successfully by pass 2, as `c6_counterexample`
shows. -/
theorem c6_no_arrow_fails (rows : List Row)
    (h : ∃ row ∈ rows, hasArrow (strip_process row.process) = false) :
    ∃ e, build_tree rows = .error e := by
  obtain ⟨row, hmem, harr⟩ := h
  cases h1 : List.foldlM pass1Row {} rows with
  | error e => exact ⟨e, by simp only [build_tree, buildPasses, h1]⟩
  | ok st =>
    obtain ⟨e, he⟩ := foldlM_pass2_err rows row hmem harr st
    exact ⟨e, by simp only [build_tree, buildPasses, h1, he]⟩

/-- C6 witness: a build containing a row with no `"->"` at all fails. -/
theorem c6_witness : ∃ e, build_tree rows6b = .error e :=
  c6_no_arrow_fails rows6b ⟨⟨"nope", "n", "m", "k=1"⟩, by decide, by rfl⟩

-- Claim C1 --------------------------------------------------------------------

/-- C1: after both passes succeed, root validation inspects the rootless
registered nodes: none at all makes the build fail with the `IndexError`
raised by `roots[0]`, exactly one is returned as the tree handle, and more
than one makes the build fail with `ValueError("Multiple roots
detected...")`. -/
theorem c1_root_validation (rows : List Row) (st : BState)
    (h : buildPasses rows = .ok st) :
    ((rootsOf st).length = 0 → build_tree rows = .error (.indexError "roots")) ∧
    ((rootsOf st).length = 1 →
      ∃ r, rootsOf st = [r] ∧ build_tree rows = .ok (r, st)) ∧
    ((rootsOf st).length > 1 →
      build_tree rows = .error (.valueError "Multiple roots detected...")) := by
  have hb : build_tree rows = validate_root st := by
    simp only [build_tree, h]
  rw [hb]
  simp only [validate_root]
  refine ⟨?_, ?_, ?_⟩
  · intro h0
    rw [List.length_eq_zero] at h0
    rw [h0]
    rfl
  · intro h1
    rw [List.length_eq_one] at h1
    obtain ⟨r, hr⟩ := h1
    refine ⟨r, hr, ?_⟩
    rw [hr]
    rfl
  · intro h2
    rw [if_pos h2]

/-- C1 witness: on `rows1` both passes succeed; the validation trichotomy
holds there (the single registered node is the returned root). -/
theorem c1_witness :
    ((rootsOf (passedState rows1)).length = 0 →
      build_tree rows1 = .error (.indexError "roots")) ∧
    ((rootsOf (passedState rows1)).length = 1 →
      ∃ r, rootsOf (passedState rows1) = [r] ∧
        build_tree rows1 = .ok (r, passedState rows1)) ∧
    ((rootsOf (passedState rows1)).length > 1 →
      build_tree rows1 = .error (.valueError "Multiple roots detected...")) :=
  c1_root_validation rows1 (passedState rows1) (by rfl)

-- Lemmas about `get_node` and `setParent` -------------------------------------

theorem nthOpt_lt_some {α : Type} {l : List α} {i : Nat} (h : i < l.length) :
    ∃ a, nthOpt l i = some a := by
  induction l generalizing i with
  | nil => cases h
  | cons b r ih =>
    cases i with
    | zero => exact ⟨b, rfl⟩
    | succ j => exact ih (Nat.lt_of_succ_lt_succ h)

theorem get_node_hit {st : BState} {name : String} {i : Nat}
    (h : aget st.registry name = some i) : get_node st name = (st, i) := by
  simp [get_node, h]

theorem get_node_spec (st : BState) (name : String) (h : RegOk st) :
    RegOk (get_node st name).1 ∧
    aget (get_node st name).1.registry name = some (get_node st name).2 ∧
    (∃ node, nthOpt (get_node st name).1.heap (get_node st name).2 = some node ∧
      node.name = name) ∧
    st.heap.length ≤ (get_node st name).1.heap.length ∧
    (∀ i, i < st.heap.length → nthOpt (get_node st name).1.heap i = nthOpt st.heap i) ∧
    (∀ k, k ≠ name → aget (get_node st name).1.registry k = aget st.registry k) := by
  cases hg : aget st.registry name with
  | some i =>
    rw [get_node_hit hg]
    obtain ⟨node, hn, hname⟩ := h (name, i) (aget_mem hg)
    exact ⟨h, hg, ⟨node, hn, hname⟩, le_refl _, fun i _ => rfl, fun k _ => rfl⟩
  | none =>
    have hgn : get_node st name =
        ({ registry := aset st.registry name st.heap.length,
           heap := st.heap ++ [{ name := name }] }, st.heap.length) := by
      simp [get_node, hg, new_node]
    rw [hgn]
    refine ⟨?_, aget_aset_self _ _ _, ⟨{ name := name }, nthOpt_append_self _ _, rfl⟩,
      by simp, ?_, ?_⟩
    · intro pr hpr
      rcases mem_aset hpr with ⟨hold, _⟩ | rfl
      · obtain ⟨node, hn, hname⟩ := h pr hold
        exact ⟨node, by rw [nthOpt_append_left (nthOpt_some_lt hn)]; exact hn, hname⟩
      · exact ⟨{ name := name }, nthOpt_append_self _ _, rfl⟩
    · intro i hi
      exact nthOpt_append_left hi
    · intro k hk
      exact aget_aset_ne _ _ _ _ hk

theorem upd_map_preserve {α : Type} {γ : Type} (g : α → γ) (l : List α) (i j : Nat)
    (f : α → α) (hf : ∀ n, g (f n) = g n) :
    (nthOpt (upd l i f) j).map g = (nthOpt l j).map g := by
  rw [nthOpt_upd]
  by_cases hji : j = i
  · rw [if_pos hji]
    cases nthOpt l j with
    | none => rfl
    | some n => simp [hf]
  · rw [if_neg hji]

theorem parentOf_upd_preserve (l : List GNode) (i j : Nat) (f : GNode → GNode)
    (hf : ∀ n, (f n).parent = n.parent) :
    parentOf (upd l i f) j = parentOf l j := by
  unfold parentOf
  rw [nthOpt_upd]
  by_cases hji : j = i
  · rw [if_pos hji]
    cases nthOpt l j with
    | none => rfl
    | some n => simp [hf]
  · rw [if_neg hji]

theorem chainMem_start {heap : List GNode} {f i t : Nat}
    (h : chainMem heap (f + 1) i t = false) : i ≠ t := by
  intro he
  subst he
  simp [chainMem] at h

theorem parentOf_upd_ch (l : List GNode) (i j : Nat) (g : GNode → List Nat) :
    parentOf (upd l i (fun n => { n with children := g n })) j = parentOf l j := by
  unfold parentOf
  rw [nthOpt_upd]
  by_cases hji : j = i
  · rw [if_pos hji]
    cases nthOpt l j with
    | none => rfl
    | some n => rfl
  · rw [if_neg hji]

theorem name_upd_ch (l : List GNode) (i j : Nat) (g : GNode → List Nat) :
    (nthOpt (upd l i (fun n => { n with children := g n })) j).map GNode.name =
      (nthOpt l j).map GNode.name :=
  upd_map_preserve GNode.name l i j _ (fun n => rfl)

theorem name_upd_par (l : List GNode) (i j : Nat) (q : Option Nat) :
    (nthOpt (upd l i (fun n => { n with parent := q })) j).map GNode.name =
      (nthOpt l j).map GNode.name :=
  upd_map_preserve GNode.name l i j _ (fun n => rfl)

theorem detach_parentOf (heap : List GNode) (c j : Nat) :
    parentOf (detachHeap heap c) j = parentOf heap j := by
  unfold detachHeap
  cases parentOf heap c with
  | some o => exact parentOf_upd_ch heap o j _
  | none => rfl

theorem detach_name (heap : List GNode) (c j : Nat) :
    (nthOpt (detachHeap heap c) j).map GNode.name = (nthOpt heap j).map GNode.name := by
  unfold detachHeap
  cases parentOf heap c with
  | some o => exact name_upd_ch heap o j _
  | none => rfl

theorem detach_length (heap : List GNode) (c : Nat) :
    (detachHeap heap c).length = heap.length := by
  unfold detachHeap
  cases parentOf heap c with
  | some o => exact upd_length _ _ _
  | none => rfl

theorem setParent_ok {heap : List GNode} {c p : Nat} {h2 : List GNode}
    (hc : c < heap.length) (h : setParent heap c p = .ok h2) :
    parentOf h2 c = some p ∧ h2.length = heap.length ∧
    (∀ i, (nthOpt h2 i).map GNode.name = (nthOpt heap i).map GNode.name) := by
  unfold setParent at h
  by_cases hnp : parentOf heap c = some p
  · rw [if_pos hnp] at h
    injection h with h
    subst h
    exact ⟨hnp, rfl, fun i => rfl⟩
  · rw [if_neg hnp] at h
    by_cases hloop : chainMem heap (heap.length + 1) p c = true
    · rw [if_pos hloop] at h
      cases h
    · rw [if_neg hloop] at h
      have hpc : p ≠ c := chainMem_start (Bool.eq_false_iff.mpr hloop)
      injection h with h
      subst h
      obtain ⟨n0, hn0⟩ := nthOpt_lt_some (l := detachHeap heap c) (i := c)
        (by rw [detach_length]; exact hc)
      refine ⟨?_, by rw [upd_length, upd_length, detach_length], ?_⟩
      · rw [parentOf_upd_ch]
        unfold parentOf
        rw [nthOpt_upd, if_pos rfl, hn0]
        rfl
      · intro i
        rw [name_upd_ch, name_upd_par, detach_name]

-- Claim C4 --------------------------------------------------------------------

/-- C4: on any relation row with a non-empty parent segment, pass 1 leaves the
registered child node's parent link pointing at the node registered under the
parent name — overwriting whatever parent it had — so the last such row wins;
concretely, building `rows4` (`"A -> B"` then `"X -> B"`, plus `"A -> X"` to
keep one root) leaves `B`'s parent named `X`. -/
theorem c4_last_relation_wins :
    (∀ (st : BState) (row : Row) (s1 s2 : String) (st2 : BState), RegOk st →
      split_process (strip_process row.process) = .ok (s1, s2) → s1 ≠ "" →
      row.process ≠ "" → hasArrow row.process = true →
      pass1Row st row = .ok st2 →
      ∃ ip ic, aget st2.registry s1 = some ip ∧ aget st2.registry s2 = some ic ∧
        parentOf st2.heap ic = some ip ∧
        ∃ pnode, nthOpt st2.heap ip = some pnode ∧ pnode.name = s1) ∧
    (∃ ib, aget (builtState rows4).registry "B" = some ib ∧
      ∃ ix, parentOf (builtState rows4).heap ib = some ix ∧
        (nthOpt (builtState rows4).heap ix).map GNode.name = some "X" ∧
        (build_tree rows4).toOption.isSome = true) := by
  constructor
  · intro st row s1 s2 st2 hreg hsp hs1 hne ha h
    unfold pass1Row at h
    rw [hsp] at h
    have hcond : (decide (row.process = "") || !hasArrow row.process) = false := by
      simp [hne, ha]
    rw [hcond] at h
    simp only [Bool.false_eq_true, if_false, if_neg hs1] at h
    obtain ⟨hq_reg, hq_get, ⟨qnode, hq_nth, hq_name⟩, hq_len, hq_pres, hq_other⟩ :=
      get_node_spec st s1 hreg
    obtain ⟨hr_reg, hr_get, ⟨rnode, hr_nth, hr_name⟩, hr_len, hr_pres, hr_other⟩ :=
      get_node_spec (get_node st s1).1 s2 hq_reg
    cases hsep : setParent (get_node (get_node st s1).1 s2).1.heap
        (get_node (get_node st s1).1 s2).2 (get_node st s1).2 with
    | error e => rw [hsep] at h; cases h
    | ok hp =>
      rw [hsep] at h
      injection h with h
      subst h
      obtain ⟨hpar, hlen, hnames⟩ := setParent_ok (nthOpt_some_lt hr_nth) hsep
      have hget_s1 : aget (get_node (get_node st s1).1 s2).1.registry s1 =
          some (get_node st s1).2 := by
        by_cases hss : s1 = s2
        · rw [← hss] at hr_get ⊢
          rw [show get_node (get_node st s1).1 s1 = ((get_node st s1).1, (get_node st s1).2)
            from get_node_hit hq_get] at hr_get ⊢
          exact hr_get
        · rw [hr_other s1 hss]
          exact hq_get
      refine ⟨(get_node st s1).2, (get_node (get_node st s1).1 s2).2, hget_s1, hr_get,
        hpar, ?_⟩
      have hq_lt : (get_node st s1).2 < (get_node st s1).1.heap.length :=
        nthOpt_some_lt hq_nth
      have hq_nth2 : nthOpt (get_node (get_node st s1).1 s2).1.heap (get_node st s1).2 =
          some qnode := by
        rw [hr_pres _ hq_lt]
        exact hq_nth
      have hmap := hnames (get_node st s1).2
      rw [hq_nth2] at hmap
      cases hend : nthOpt hp (get_node st s1).2 with
      | none => rw [hend] at hmap; cases hmap
      | some pnode =>
        rw [hend] at hmap
        injection hmap with hmap
        exact ⟨pnode, rfl, by rw [hmap, hq_name]⟩
  · exact ⟨1, by decide, 2, by decide, by decide, by decide⟩

/-- C4 witness: processing `"A -> B"` from the empty state registers `A` and
`B` and points `B`'s parent link at the node named `A`. -/
theorem c4_witness :
    ∃ ip ic, aget (pass1State [(⟨"A -> B", "B", "m", "k=1"⟩ : Row)]).registry "A" = some ip ∧
      aget (pass1State [(⟨"A -> B", "B", "m", "k=1"⟩ : Row)]).registry "B" = some ic ∧
      parentOf (pass1State [(⟨"A -> B", "B", "m", "k=1"⟩ : Row)]).heap ic = some ip ∧
      ∃ pnode, nthOpt (pass1State [(⟨"A -> B", "B", "m", "k=1"⟩ : Row)]).heap ip =
        some pnode ∧ pnode.name = "A" :=
  c4_last_relation_wins.1 {} ⟨"A -> B", "B", "m", "k=1"⟩ "A" "B"
    (pass1State [(⟨"A -> B", "B", "m", "k=1"⟩ : Row)])
    (fun pr hpr => absurd hpr (List.not_mem_nil pr))
    (by rfl) (by decide) (by decide) (by rfl) (by rfl)

-- Claim C9 --------------------------------------------------------------------

/-- C9: on `rows9` the build succeeds with a single root, yet node id 1 (the
original `A`) is reachable in the returned tree, is registered under no name,
has a parent, and was never populated by pass 2: no label, module, params or
kwargs. -/
theorem c9_stale_node_reachable :
    ∃ root st, build_tree rows9 = .ok (root, st) ∧
      ∃ i, i ∈ traverse_tree st root ∧
        i ∉ st.registry.map (fun pr => pr.2) ∧
        ∃ n, nthOpt st.heap i = some n ∧ n.parent.isSome = true ∧
          n.kwargs = none ∧ n.label = none ∧ n.module = none ∧ n.params = none :=
  ⟨builtRoot rows9, builtState rows9, by decide, 1, by decide, by decide,
    { name := "A", parent := some 0, children := [2] }, by decide, by decide,
    by decide, by decide, by decide, by decide⟩

-- Pass-1 bookkeeping for claim C2 ----------------------------------------------

theorem parentOf_upd_ne (l : List GNode) (i j : Nat) (f : GNode → GNode) (h : j ≠ i) :
    parentOf (upd l i f) j = parentOf l j := by
  unfold parentOf
  rw [nthOpt_upd, if_neg h]

theorem setParent_parent_other {heap : List GNode} {c p : Nat} {h2 : List GNode}
    (h : setParent heap c p = .ok h2) :
    ∀ j, j ≠ c → parentOf h2 j = parentOf heap j := by
  unfold setParent at h
  by_cases hnp : parentOf heap c = some p
  · rw [if_pos hnp] at h
    injection h with h
    subst h
    exact fun j _ => rfl
  · rw [if_neg hnp] at h
    by_cases hloop : chainMem heap (heap.length + 1) p c = true
    · rw [if_pos hloop] at h
      cases h
    · rw [if_neg hloop] at h
      injection h with h
      subst h
      intro j hj
      rw [parentOf_upd_ch, parentOf_upd_ne _ _ _ _ hj, detach_parentOf]

theorem get_node_cases (st : BState) (name : String) :
    (∃ i, aget st.registry name = some i ∧ get_node st name = (st, i)) ∨
    (aget st.registry name = none ∧ get_node st name =
      ({ registry := aset st.registry name st.heap.length,
         heap := st.heap ++ [{ name := name }] }, st.heap.length)) := by
  cases hg : aget st.registry name with
  | some i => exact Or.inl ⟨i, rfl, get_node_hit hg⟩
  | none =>
    refine Or.inr ⟨rfl, ?_⟩
    simp [get_node, hg, new_node]

theorem regok_empty : RegOk {} :=
  fun pr hpr => absurd hpr (List.not_mem_nil pr)

theorem parentOf_congr {h1 h2 : List GNode} {i : Nat}
    (h : nthOpt h1 i = nthOpt h2 i) : parentOf h1 i = parentOf h2 i := by
  unfold parentOf
  rw [h]

theorem get_node_spec2 {st : BState} {name : String} {st1 : BState} {ip : Nat}
    (h : get_node st name = (st1, ip)) (hreg : RegOk st) :
    RegOk st1 ∧ aget st1.registry name = some ip ∧
    (∃ node, nthOpt st1.heap ip = some node ∧ node.name = name) ∧
    st.heap.length ≤ st1.heap.length ∧
    (∀ i, i < st.heap.length → nthOpt st1.heap i = nthOpt st.heap i) ∧
    (∀ k, k ≠ name → aget st1.registry k = aget st.registry k) := by
  have hs := get_node_spec st name hreg
  rw [h] at hs
  exact hs

theorem pass1Row_linked (st : BState) (row : Row) (st2 : BState)
    (hreg : RegOk st) (h : pass1Row st row = .ok st2) :
    RegOk st2 ∧ ∀ name, Linked st2 name → pass2child row = some name ∨ Linked st name := by
  unfold pass1Row at h
  cases hcond : (decide (row.process = "") || !hasArrow row.process) with
  | true =>
    rw [hcond] at h
    simp only [if_true] at h
    injection h with h
    subst h
    exact ⟨hreg, fun name hl => Or.inr hl⟩
  | false =>
    rw [hcond] at h
    simp only [Bool.false_eq_true, if_false] at h
    cases hsp : split_process (strip_process row.process) with
    | error e => rw [hsp] at h; cases h
    | ok s12 =>
      obtain ⟨s1, s2⟩ := s12
      rw [hsp] at h
      simp only [] at h
      have hchild : pass2child row = some s2 := by
        unfold pass2child
        rw [hsp]
      by_cases hs1 : s1 = ""
      · rw [if_pos hs1] at h
        simp only [new_node] at h
        injection h with h
        subst h
        constructor
        · intro pr hpr
          rcases mem_aset hpr with ⟨hold, _⟩ | rfl
          · obtain ⟨node, hn, hname⟩ := hreg pr hold
            exact ⟨node, by rw [nthOpt_append_left (nthOpt_some_lt hn)]; exact hn, hname⟩
          · exact ⟨{ name := s2 }, nthOpt_append_self _ _, rfl⟩
        · intro name hl
          by_cases hns : name = s2
          · subst hns
            exact Or.inl hchild
          · obtain ⟨i, node, p, hai, hni, hpi⟩ := hl
            rw [aget_aset_ne _ _ _ _ hns] at hai
            obtain ⟨node0, hn0, _⟩ := hreg (name, i) (aget_mem hai)
            rw [nthOpt_append_left (nthOpt_some_lt hn0)] at hni
            exact Or.inr ⟨i, node, p, hai, hni, hpi⟩
      · rw [if_neg hs1] at h
        rcases hgq : get_node st s1 with ⟨stq, ip⟩
        obtain ⟨hq_reg, hq_get, ⟨qnode, hq_nth, hq_name⟩, hq_len, hq_pres, hq_other⟩ :=
          get_node_spec2 hgq hreg
        rw [hgq] at h
        dsimp only at h
        rcases hgr : get_node stq s2 with ⟨str2, ic⟩
        obtain ⟨hr_reg, hr_get, ⟨rnode, hr_nth, hr_name⟩, hr_len, hr_pres, hr_other⟩ :=
          get_node_spec2 hgr hq_reg
        rw [hgr] at h
        dsimp only at h
        cases hsep : setParent str2.heap ic ip with
        | error e => rw [hsep] at h; cases h
        | ok hp =>
          rw [hsep] at h
          simp only [] at h
          injection h with h
          subst h
          obtain ⟨hpar, hlen, hnames⟩ := setParent_ok (nthOpt_some_lt hr_nth) hsep
          constructor
          · intro pr hpr
            obtain ⟨noder, hnr, hnamr⟩ := hr_reg pr hpr
            have hmap := hnames pr.2
            rw [hnr] at hmap
            cases hend : nthOpt hp pr.2 with
            | none => rw [hend] at hmap; cases hmap
            | some node2 =>
              rw [hend] at hmap
              injection hmap with hmap
              exact ⟨node2, rfl, by rw [hmap, hnamr]⟩
          · intro name hl
            by_cases hns : name = s2
            · subst hns
              exact Or.inl hchild
            · obtain ⟨i, node, p, hai, hni, hpi⟩ := hl
              have hai2 : aget str2.registry name = some i := hai
              have hni2 : nthOpt hp i = some node := hni
              rw [hr_other name hns] at hai2
              obtain ⟨noderq, hnrq0, hnamrq0⟩ := hq_reg (name, i) (aget_mem hai2)
              have hnrq : nthOpt stq.heap i = some noderq := hnrq0
              have hnamrq : noderq.name = name := hnamrq0
              have hltq : i < stq.heap.length := nthOpt_some_lt hnrq
              have hic : i ≠ ic := by
                intro he
                have hsame : nthOpt str2.heap i = some noderq := by
                  rw [hr_pres i hltq]
                  exact hnrq
                rw [he, hr_nth] at hsame
                injection hsame with hsame
                apply hns
                rw [← hnamrq, ← hsame, hr_name]
              have hparo := setParent_parent_other hsep i hic
              have hpi2 : parentOf str2.heap i = some p := by
                rw [← hparo]
                unfold parentOf
                rw [hni2]
                exact hpi
              have hpi3 : parentOf stq.heap i = some p := by
                rw [← parentOf_congr (hr_pres i hltq)]
                exact hpi2
              by_cases hns1 : name = s1
              · subst hns1
                rcases get_node_cases st name with ⟨i0, hg0, hge⟩ | ⟨hg0, hge⟩
                · rw [hgq] at hge
                  obtain ⟨he1, he2⟩ := Prod.mk.inj hge
                  subst he1
                  refine Or.inr ⟨i, noderq, p, hai2, hnrq, ?_⟩
                  unfold parentOf at hpi3
                  rw [hnrq] at hpi3
                  exact hpi3
                · rw [hgq] at hge
                  obtain ⟨he1, he2⟩ := Prod.mk.inj hge
                  have hii : i = ip := by
                    rw [hq_get] at hai2
                    exact (Option.some.inj hai2).symm
                  subst hii
                  subst he2
                  rw [he1] at hnrq
                  rw [nthOpt_append_self] at hnrq
                  injection hnrq with hnrq
                  rw [he1] at hpi3
                  unfold parentOf at hpi3
                  rw [nthOpt_append_self] at hpi3
                  simp only [] at hpi3
                  cases hpi3
              · rw [hq_other name hns1] at hai2
                obtain ⟨node0, hn00, _⟩ := hreg (name, i) (aget_mem hai2)
                have hn0 : nthOpt st.heap i = some node0 := hn00
                have hpi4 : parentOf st.heap i = some p := by
                  rw [← parentOf_congr (hq_pres i (nthOpt_some_lt hn0))]
                  exact hpi3
                refine Or.inr ⟨i, node0, p, hai2, hn0, ?_⟩
                unfold parentOf at hpi4
                rw [hn0] at hpi4
                exact hpi4

theorem pass1_fold_linked (rows : List Row) :
    ∀ st0 st : BState, RegOk st0 → List.foldlM pass1Row st0 rows = .ok st →
    RegOk st ∧ ∀ name, Linked st name →
      Linked st0 name ∨ ∃ row ∈ rows, pass2child row = some name := by
  induction rows with
  | nil =>
    intro st0 st h0 h
    injection h with h
    subst h
    exact ⟨h0, fun name hl => Or.inl hl⟩
  | cons a l ih =>
    intro st0 st h0 h
    rw [List.foldlM_cons] at h
    cases ha : pass1Row st0 a with
    | error e => rw [ha] at h; cases h
    | ok st1 =>
      rw [ha] at h
      rw [show (Except.ok st1 >>= fun s => List.foldlM pass1Row s l) =
        List.foldlM pass1Row st1 l from rfl] at h
      obtain ⟨h1reg, h1link⟩ := pass1Row_linked st0 a st1 h0 ha
      obtain ⟨hreg, hlink⟩ := ih st1 st h1reg h
      refine ⟨hreg, fun name hl => ?_⟩
      rcases hlink name hl with hl1 | ⟨row, hrow, hc⟩
      · rcases h1link name hl1 with hc | hl0
        · exact Or.inr ⟨a, List.mem_cons_self _ _, hc⟩
        · exact Or.inl hl0
      · exact Or.inr ⟨row, List.mem_cons_of_mem _ hrow, hc⟩

-- Pass-2 effect for claim C2 ---------------------------------------------------

theorem kwargsAligned_transfer {heap1 heap2 : List GNode} {node : GNode}
    (hn : ∀ j, (nthOpt heap2 j).map GNode.name = (nthOpt heap1 j).map GNode.name)
    (h : kwargsAligned heap1 node) : kwargsAligned heap2 node := by
  intro p hp
  obtain ⟨kw, pnode, hkw, hpn, hpar, hch⟩ := h p hp
  have hmap := hn p
  rw [hpn] at hmap
  cases hend : nthOpt heap2 p with
  | none => rw [hend] at hmap; cases hmap
  | some pnode2 =>
    rw [hend] at hmap
    injection hmap with hmap
    exact ⟨kw, pnode2, hkw, rfl, by rw [hmap]; exact hpar, hch⟩

theorem pass2Row_effect (st : BState) (row : Row) (st2 : BState)
    (h : pass2Row st row = .ok st2) :
    st2.registry = st.registry ∧
    st2.heap.length = st.heap.length ∧
    (∀ j, parentOf st2.heap j = parentOf st.heap j) ∧
    (∀ j, (nthOpt st2.heap j).map GNode.name = (nthOpt st.heap j).map GNode.name) ∧
    ∃ s2 it, pass2child row = some s2 ∧ aget st.registry s2 = some it ∧
      (∀ j, j ≠ it → nthOpt st2.heap j = nthOpt st.heap j) ∧
      (∀ node2, nthOpt st2.heap it = some node2 → kwargsAligned st2.heap node2) := by
  unfold pass2Row at h
  cases hsp : split_process (strip_process row.process) with
  | error e => rw [hsp] at h; cases h
  | ok s12 =>
    obtain ⟨s1, s2⟩ := s12
    rw [hsp] at h
    simp only [] at h
    have hchild : pass2child row = some s2 := by
      unfold pass2child
      rw [hsp]
    cases hg : aget st.registry s2 with
    | none => rw [hg] at h; cases h
    | some it =>
      rw [hg] at h
      simp only [] at h
      cases hn : nthOpt st.heap it with
      | none => rw [hn] at h; cases h
      | some node =>
        rw [hn] at h
        simp only [] at h
        cases hkw : split_params row.params with
        | error e => rw [hkw] at h; cases h
        | ok kw0 =>
          rw [hkw] at h
          simp only [] at h
          cases hpar : node.parent with
          | none =>
            rw [hpar] at h
            simp only [] at h
            injection h with h
            subst h
            refine ⟨rfl, upd_length _ _ _, ?_, ?_, s2, it, hchild, hg, ?_, ?_⟩
            · intro j
              exact parentOf_upd_preserve _ _ _ _ (fun n => rfl)
            · intro j
              exact upd_map_preserve GNode.name _ _ _ _ (fun n => rfl)
            · intro j hj
              dsimp only
              rw [nthOpt_upd, if_neg hj]
            · intro node2 hn2
              dsimp only at hn2
              rw [nthOpt_upd, if_pos rfl, hn] at hn2
              injection hn2 with hn2
              intro p hp
              rw [← hn2] at hp
              dsimp only at hp
              rw [hpar] at hp
              cases hp
          | some ip =>
            rw [hpar] at h
            simp only [] at h
            cases hpn : nthOpt st.heap ip with
            | none => rw [hpn] at h; cases h
            | some pnode =>
              rw [hpn] at h
              simp only [] at h
              injection h with h
              subst h
              refine ⟨rfl, upd_length _ _ _, ?_, ?_, s2, it, hchild, hg, ?_, ?_⟩
              · intro j
                exact parentOf_upd_preserve _ _ _ _ (fun n => rfl)
              · intro j
                exact upd_map_preserve GNode.name _ _ _ _ (fun n => rfl)
              · intro j hj
                dsimp only
                rw [nthOpt_upd, if_neg hj]
              · intro node2 hn2
                dsimp only at hn2
                rw [nthOpt_upd, if_pos rfl, hn] at hn2
                injection hn2 with hn2
                intro p hp
                rw [← hn2] at hp
                dsimp only at hp
                rw [hpar] at hp
                injection hp with hp
                subst hp
                refine ⟨aset (aset kw0 "child" node.name) "parent" pnode.name, ?_⟩
                have hnames : ∀ j, (nthOpt (upd st.heap it (fun n =>
                    { n with label := some row.label, module := some row.module,
                             params := some row.params,
                             kwargs := some (aset (aset kw0 "child" node.name) "parent"
                               pnode.name) })) j).map GNode.name =
                    (nthOpt st.heap j).map GNode.name :=
                  fun j => upd_map_preserve GNode.name _ _ _ _ (fun n => rfl)
                have hmap := hnames ip
                rw [hpn] at hmap
                cases hend : nthOpt (upd st.heap it (fun n =>
                    { n with label := some row.label, module := some row.module,
                             params := some row.params,
                             kwargs := some (aset (aset kw0 "child" node.name) "parent"
                               pnode.name) })) ip with
                | none => rw [hend] at hmap; cases hmap
                | some pnode2 =>
                  rw [hend] at hmap
                  injection hmap with hmap
                  refine ⟨pnode2, by rw [← hn2], rfl, ?_, ?_⟩
                  · rw [hmap]
                    exact aget_aset_self _ _ _
                  · rw [aget_aset_ne _ _ _ _ (by decide : ("child" : String) ≠ "parent")]
                    rw [aget_aset_self, ← hn2]

theorem pass2_fold_aligned (rest : List Row) :
    ∀ st stf : BState,
      (∀ name i, aget st.registry name = some i → ∀ node, nthOpt st.heap i = some node →
        ∀ p, node.parent = some p →
        kwargsAligned st.heap node ∨ ∃ row ∈ rest, pass2child row = some name) →
      List.foldlM pass2Row st rest = .ok stf →
      ∀ name i, aget stf.registry name = some i → ∀ node, nthOpt stf.heap i = some node →
        kwargsAligned stf.heap node := by
  induction rest with
  | nil =>
    intro st stf hinv h
    injection h with h
    subst h
    intro name i hai node hni p hp
    rcases hinv name i hai node hni p hp with hal | ⟨row, hrow, _⟩
    · exact hal p hp
    · cases hrow
  | cons a l ih =>
    intro st stf hinv h
    rw [List.foldlM_cons] at h
    cases ha : pass2Row st a with
    | error e => rw [ha] at h; cases h
    | ok st1 =>
      rw [ha] at h
      rw [show (Except.ok st1 >>= fun s => List.foldlM pass2Row s l) =
        List.foldlM pass2Row st1 l from rfl] at h
      obtain ⟨hregeq, hlen, hpare, hname, s2, it, hchild, hgets2, hothers, haligned⟩ :=
        pass2Row_effect st a st1 ha
      refine ih st1 stf ?_ h
      intro name i hai node1 hni1 p hp1
      rw [hregeq] at hai
      by_cases hit : i = it
      · subst hit
        exact Or.inl (haligned node1 hni1)
      · have hni0 : nthOpt st.heap i = some node1 := by
          rw [← hothers i hit]
          exact hni1
        rcases hinv name i hai node1 hni0 p hp1 with hal | ⟨row2, hrow2, hc2⟩
        · exact Or.inl (kwargsAligned_transfer hname hal)
        · rcases List.mem_cons.mp hrow2 with rfl | hrow3
          · rw [hchild] at hc2
            injection hc2 with hc2
            subst hc2
            rw [hai] at hgets2
            exact absurd (Option.some.inj hgets2) hit
          · exact Or.inr ⟨row2, hrow3, hc2⟩

-- Claim C2 --------------------------------------------------------------------

/-- C2 counterexample: on `rows9` the build succeeds, but a reachable non-root
node of the returned tree (the stale original `A`) violates the kwargs
contract — it has no kwargs at all. -/
theorem c2_counterexample : allTreeKwargsAligned rows9 = false := by decide

/-- C2 (amended): for every input on which `build_tree` succeeds, every node
still present in the registry satisfies the kwargs contract: if it has a
parent, its `kwargs` maps `"parent"` to the parent node's name and `"child"`
to its own name.  (A stale node orphaned from the registry by a root-shortcut
overwrite can stay reachable in the tree without this property, as
`c2_counterexample` shows.) -/
theorem c2_registered_kwargs (rows : List Row) (root : Nat) (st : BState)
    (h : build_tree rows = .ok (root, st)) :
    ∀ name i, aget st.registry name = some i → ∀ node, nthOpt st.heap i = some node →
      kwargsAligned st.heap node := by
  cases hbp : buildPasses rows with
  | error e =>
    rw [show build_tree rows = .error e by simp only [build_tree, hbp]] at h
    cases h
  | ok stp =>
    have hbt : build_tree rows = validate_root stp := by
      simp only [build_tree, hbp]
    rw [hbt] at h
    have hst : stp = st := by
      unfold validate_root at h
      by_cases hl : (rootsOf stp).length > 1
      · rw [if_pos hl] at h
        cases h
      · rw [if_neg hl] at h
        cases hro : rootsOf stp with
        | nil => rw [hro] at h; cases h
        | cons r rs =>
          rw [hro] at h
          simp only [] at h
          injection h with h
          exact (Prod.mk.inj h).2
    subst hst
    unfold buildPasses at hbp
    cases h1 : List.foldlM pass1Row {} rows with
    | error e => rw [h1] at hbp; cases hbp
    | ok stA =>
      rw [h1] at hbp
      simp only [] at hbp
      obtain ⟨hregA, hlinkA⟩ := pass1_fold_linked rows {} stA regok_empty h1
      refine pass2_fold_aligned rows stA stp ?_ hbp
      intro name i hai node hni p hp
      right
      rcases hlinkA name ⟨i, node, p, hai, hni, hp⟩ with h0 | hw
      · obtain ⟨i0, node0, p0, ha0, _, _⟩ := h0
        cases ha0
      · exact hw

/-- C2 witness: on the spec's example rows the registered child `B` satisfies
the kwargs contract. -/
theorem c2_witness :
    kwargsAligned (builtState rowsW).heap
      { name := "B", parent := some 0, children := [],
        label := some "B1", module := some "m", params := some "label=B1",
        kwargs := some [("label", "B1"), ("child", "B"), ("parent", "A")] } :=
  c2_registered_kwargs rowsW (builtRoot rowsW) (builtState rowsW) (by decide) "B" 1
    (by decide)
    { name := "B", parent := some 0, children := [],
      label := some "B1", module := some "m", params := some "label=B1",
      kwargs := some [("label", "B1"), ("child", "B"), ("parent", "A")] }
    (by decide)

-- Ancestor-walk theory for claim C8 --------------------------------------------

theorem termB_none {heap : List GNode} {f i : Nat} (hp : parentOf heap i = none) :
    termB heap (f + 1) i = true := by
  rw [termB, hp]

theorem termB_some {heap : List GNode} {f i p : Nat} (hp : parentOf heap i = some p) :
    termB heap (f + 1) i = termB heap f p := by
  rw [termB, hp]

theorem depthB_none {heap : List GNode} {f i : Nat} (hp : parentOf heap i = none) :
    depthB heap (f + 1) i = some 0 := by
  rw [depthB, hp]

theorem depthB_some {heap : List GNode} {f i p : Nat} (hp : parentOf heap i = some p) :
    depthB heap (f + 1) i = (depthB heap f p).map (fun d => d + 1) := by
  rw [depthB, hp]

theorem chainL_none {heap : List GNode} {f i : Nat} (hp : parentOf heap i = none) :
    chainL heap (f + 1) i = [i] := by
  rw [chainL, hp]

theorem chainL_some {heap : List GNode} {f i p : Nat} (hp : parentOf heap i = some p) :
    chainL heap (f + 1) i = i :: chainL heap f p := by
  rw [chainL, hp]

theorem termB_mono {heap : List GNode} {f g i : Nat}
    (h : termB heap f i = true) (hfg : f ≤ g) : termB heap g i = true := by
  induction f generalizing i g with
  | zero => cases h
  | succ f ih =>
    obtain ⟨g2, rfl⟩ : ∃ g2, g = g2 + 1 := ⟨g - 1, by omega⟩
    cases hp : parentOf heap i with
    | none => rw [termB_none hp]
    | some p =>
      rw [termB_some hp] at h
      rw [termB_some hp]
      exact ih h (by omega)

theorem depthB_mono {heap : List GNode} {f g i d : Nat}
    (h : depthB heap f i = some d) (hfg : f ≤ g) : depthB heap g i = some d := by
  induction f generalizing i g d with
  | zero => cases h
  | succ f ih =>
    obtain ⟨g2, rfl⟩ : ∃ g2, g = g2 + 1 := ⟨g - 1, by omega⟩
    cases hp : parentOf heap i with
    | none =>
      rw [depthB_none hp] at h
      rw [depthB_none hp]
      exact h
    | some p =>
      rw [depthB_some hp] at h
      rw [depthB_some hp]
      cases hd : depthB heap f p with
      | none => rw [hd] at h; cases h
      | some d2 =>
        rw [hd] at h
        rw [ih hd (by omega)]
        exact h

theorem depthB_unique {heap : List GNode} {f g i a b : Nat}
    (ha : depthB heap f i = some a) (hb : depthB heap g i = some b) : a = b := by
  have h1 := depthB_mono ha (Nat.le_max_left f g)
  have h2 := depthB_mono hb (Nat.le_max_right f g)
  rw [h1] at h2
  exact Option.some.inj h2

theorem termB_depthB {heap : List GNode} {f i : Nat}
    (h : termB heap f i = true) : ∃ d, depthB heap f i = some d := by
  induction f generalizing i with
  | zero => cases h
  | succ f ih =>
    cases hp : parentOf heap i with
    | none => exact ⟨0, depthB_none hp⟩
    | some p =>
      rw [termB_some hp] at h
      obtain ⟨d, hd⟩ := ih h
      exact ⟨d + 1, by rw [depthB_some hp, hd]; rfl⟩

theorem depthB_termB {heap : List GNode} {f i d : Nat}
    (h : depthB heap f i = some d) : termB heap (d + 1) i = true := by
  induction f generalizing i d with
  | zero => cases h
  | succ f ih =>
    cases hp : parentOf heap i with
    | none => exact termB_none hp
    | some p =>
      rw [depthB_some hp] at h
      cases hd : depthB heap f p with
      | none => rw [hd] at h; cases h
      | some d2 =>
        rw [hd] at h
        simp only [Option.map_some'] at h
        injection h with h
        subst h
        rw [termB_some hp]
        exact termB_mono (ih hd) (by omega)

theorem depthB_shrink {heap : List GNode} {f g i d : Nat}
    (h : depthB heap f i = some d) (hd : d < g) : depthB heap g i = some d := by
  induction f generalizing i g d with
  | zero => cases h
  | succ f ih =>
    obtain ⟨g2, rfl⟩ : ∃ g2, g = g2 + 1 := ⟨g - 1, by omega⟩
    cases hp : parentOf heap i with
    | none =>
      rw [depthB_none hp] at h
      rw [depthB_none hp]
      exact h
    | some p =>
      rw [depthB_some hp] at h
      rw [depthB_some hp]
      cases hdp : depthB heap f p with
      | none => rw [hdp] at h; cases h
      | some d2 =>
        rw [hdp] at h
        simp only [Option.map_some'] at h
        injection h with h
        subst h
        rw [ih hdp (by omega)]
        rfl

theorem depthB_step {heap : List GNode} {f x i k : Nat}
    (hp : parentOf heap x = some i) (h : depthB heap f i = some k) :
    depthB heap (f + 1) x = some (k + 1) := by
  rw [depthB_some hp, h]
  rfl

theorem chainL_length {heap : List GNode} {f i d : Nat}
    (h : depthB heap f i = some d) : (chainL heap f i).length = d + 1 := by
  induction f generalizing i d with
  | zero => cases h
  | succ f ih =>
    cases hp : parentOf heap i with
    | none =>
      rw [depthB_none hp] at h
      injection h with h
      subst h
      rw [chainL_none hp]
      rfl
    | some p =>
      rw [depthB_some hp] at h
      cases hd : depthB heap f p with
      | none => rw [hd] at h; cases h
      | some d2 =>
        rw [hd] at h
        simp only [Option.map_some'] at h
        injection h with h
        subst h
        rw [chainL_some hp]
        simp [ih hd]

theorem chainL_mem_depth {heap : List GNode} {f i d : Nat}
    (h : depthB heap f i = some d) :
    ∀ x ∈ chainL heap f i, ∃ dx, depthB heap f x = some dx ∧ dx ≤ d := by
  induction f generalizing i d with
  | zero => cases h
  | succ f ih =>
    intro x hx
    have hdef := h
    cases hp : parentOf heap i with
    | none =>
      rw [depthB_none hp] at h
      injection h with h
      subst h
      rw [chainL_none hp] at hx
      rcases List.mem_cons.mp hx with rfl | hx2
      · exact ⟨0, hdef, le_refl 0⟩
      · cases hx2
    | some p =>
      rw [depthB_some hp] at h
      rw [chainL_some hp] at hx
      cases hd : depthB heap f p with
      | none => rw [hd] at h; cases h
      | some d2 =>
        rw [hd] at h
        simp only [Option.map_some'] at h
        injection h with h
        subst h
        rcases List.mem_cons.mp hx with rfl | hx2
        · exact ⟨d2 + 1, hdef, le_refl _⟩
        · obtain ⟨dx, hdx, hle⟩ := ih hd x hx2
          exact ⟨dx, depthB_mono hdx (by omega), by omega⟩

theorem chainL_nodup {heap : List GNode} {f i d : Nat}
    (h : depthB heap f i = some d) : (chainL heap f i).Nodup := by
  induction f generalizing i d with
  | zero => exact List.nodup_nil
  | succ f ih =>
    have hdef := h
    cases hp : parentOf heap i with
    | none =>
      rw [chainL_none hp]
      simp
    | some p =>
      rw [depthB_some hp] at h
      rw [chainL_some hp]
      cases hd : depthB heap f p with
      | none => rw [hd] at h; cases h
      | some d2 =>
        rw [hd] at h
        simp only [Option.map_some'] at h
        injection h with h
        subst h
        refine List.Nodup.cons ?_ (ih hd)
        intro hmem
        obtain ⟨dx, hdx, hle⟩ := chainL_mem_depth hd i hmem
        have heq : d2 + 1 = dx := depthB_unique hdef (depthB_mono hdx (Nat.le_succ f))
        omega

theorem chainL_mem_lt {heap : List GNode} {f i : Nat}
    (hpir : ∀ a q, parentOf heap a = some q → q < heap.length)
    (hi : i < heap.length) : ∀ x ∈ chainL heap f i, x < heap.length := by
  induction f generalizing i with
  | zero => intro x hx; cases hx
  | succ f ih =>
    intro x hx
    cases hp : parentOf heap i with
    | none =>
      rw [chainL_none hp] at hx
      rcases List.mem_cons.mp hx with rfl | hx2
      · exact hi
      · cases hx2
    | some p =>
      rw [chainL_some hp] at hx
      rcases List.mem_cons.mp hx with rfl | hx2
      · exact hi
      · exact ih (hpir i p hp) x hx2

theorem nodup_lt_length {l : List Nat} {n : Nat} (hd : l.Nodup)
    (hlt : ∀ x ∈ l, x < n) : l.length ≤ n := by
  have h1 : l.toFinset.card = l.length := List.toFinset_card_of_nodup hd
  have h2 : l.toFinset ⊆ Finset.range n := by
    intro x hx
    exact Finset.mem_range.mpr (hlt x (List.mem_toFinset.mp hx))
  have h3 := Finset.card_le_card h2
  rw [h1, Finset.card_range] at h3
  exact h3

theorem depth_bound {heap : List GNode} {f i d : Nat}
    (hpir : ∀ a q, parentOf heap a = some q → q < heap.length)
    (hi : i < heap.length) (h : depthB heap f i = some d) : d + 1 ≤ heap.length := by
  have hlen := chainL_length h
  have hnd := chainL_nodup h
  have hlt := chainL_mem_lt hpir hi (f := f)
  rw [← hlen]
  exact nodup_lt_length hnd hlt

theorem wf_term_bound {heap : List GNode}
    (hwf : ∀ i, i < heap.length → ∃ f, termB heap f i = true)
    (hpir : ∀ a q, parentOf heap a = some q → q < heap.length) :
    ∀ i, i < heap.length → termB heap (heap.length + 1) i = true := by
  intro i hi
  obtain ⟨f, hf⟩ := hwf i hi
  obtain ⟨d, hd⟩ := termB_depthB hf
  have hb := depth_bound hpir hi hd
  exact termB_mono (depthB_termB hd) (by omega)

-- Invariant preservation through `setParent` ------------------------------------

theorem childrenOf_upd_ne (l : List GNode) (i j : Nat) (f : GNode → GNode) (h : j ≠ i) :
    childrenOf (upd l i f) j = childrenOf l j := by
  unfold childrenOf
  rw [nthOpt_upd, if_neg h]

theorem childrenOf_upd_preserve (l : List GNode) (i j : Nat) (f : GNode → GNode)
    (hf : ∀ n, (f n).children = n.children) :
    childrenOf (upd l i f) j = childrenOf l j := by
  unfold childrenOf
  rw [nthOpt_upd]
  by_cases hji : j = i
  · rw [if_pos hji]
    cases nthOpt l j with
    | none => rfl
    | some n => simp [hf]
  · rw [if_neg hji]

theorem childrenOf_upd_self {l : List GNode} {i : Nat} {n : GNode} (f : GNode → GNode)
    (hn : nthOpt l i = some n) : childrenOf (upd l i f) i = (f n).children := by
  unfold childrenOf
  rw [nthOpt_upd, if_pos rfl, hn]
  rfl

theorem detachHeap_none {heap : List GNode} {c : Nat} (h : parentOf heap c = none) :
    detachHeap heap c = heap := by
  unfold detachHeap
  rw [h]

theorem detachHeap_children {heap : List GNode} {c o : Nat}
    (h : parentOf heap c = some o) (ho : o < heap.length) :
    ∀ j, childrenOf (detachHeap heap c) j =
      if j = o then (childrenOf heap o).filter (fun x => x ≠ c) else childrenOf heap j := by
  intro j
  unfold detachHeap
  rw [h]
  by_cases hjo : j = o
  · subst hjo
    obtain ⟨n, hn⟩ := nthOpt_lt_some ho
    rw [childrenOf_upd_self _ hn, if_pos rfl]
    unfold childrenOf
    rw [hn]
  · rw [childrenOf_upd_ne _ _ _ _ hjo, if_neg hjo]

theorem chainMem_false_elim {heap : List GNode} {f j c : Nat}
    (h : chainMem heap (f + 1) j c = false) :
    j ≠ c ∧ ∀ q, parentOf heap j = some q → chainMem heap f q c = false := by
  rw [chainMem] at h
  by_cases hjc : j = c
  · rw [if_pos hjc] at h
    cases h
  · rw [if_neg hjc] at h
    refine ⟨hjc, fun q hq => ?_⟩
    rw [hq] at h
    exact h

theorem walk_avoid {heap h2 : List GNode} {c : Nat}
    (hother : ∀ x, x ≠ c → parentOf h2 x = parentOf heap x) :
    ∀ f j, termB heap f j = true → chainMem heap f j c = false → termB h2 f j = true := by
  intro f
  induction f with
  | zero => intro j h _; cases h
  | succ f ih =>
    intro j ht hm
    obtain ⟨hjc, hstep⟩ := chainMem_false_elim hm
    cases hp : parentOf heap j with
    | none => exact termB_none (by rw [hother j hjc]; exact hp)
    | some q =>
      rw [termB_some hp] at ht
      rw [termB_some (by rw [hother j hjc]; exact hp)]
      exact ih q ht (hstep q hp)

theorem term_after_set {heap h2 : List GNode} {c p F : Nat}
    (hother : ∀ x, x ≠ c → parentOf h2 x = parentOf heap x)
    (hcp : parentOf h2 c = some p)
    (htp : termB h2 F p = true) :
    ∀ f j, termB heap f j = true → termB h2 (f + (F + 1)) j = true := by
  intro f
  induction f with
  | zero => intro j h; cases h
  | succ f ih =>
    intro j ht
    by_cases hjc : j = c
    · subst hjc
      have : termB h2 (F + 1) j = true := by
        rw [termB_some hcp]
        exact htp
      exact termB_mono this (by omega)
    · cases hp2 : parentOf heap j with
      | none => exact termB_none (by rw [hother j hjc]; exact hp2)
      | some q =>
        rw [termB_some hp2] at ht
        have hq := ih q ht
        have : (f + 1) + (F + 1) = (f + (F + 1)) + 1 := by omega
        rw [this]
        rw [termB_some (by rw [hother j hjc]; exact hp2)]
        exact hq

theorem setParent_inv {heap : List GNode} {c p : Nat} {h2 : List GNode}
    (hwf : ∀ i, i < heap.length → ∃ f, termB heap f i = true)
    (hpir : ∀ i q, parentOf heap i = some q → q < heap.length)
    (hcons : ∀ i x, x ∈ childrenOf heap i → parentOf heap x = some i)
    (hc : c < heap.length) (hp : p < heap.length)
    (h : setParent heap c p = .ok h2) :
    (∀ i, i < h2.length → ∃ f, termB h2 f i = true) ∧
    (∀ i q, parentOf h2 i = some q → q < h2.length) ∧
    (∀ i x, x ∈ childrenOf h2 i → parentOf h2 x = some i) := by
  have hlen : h2.length = heap.length := (setParent_ok hc h).2.1
  have hcp : parentOf h2 c = some p := (setParent_ok hc h).1
  have hother := setParent_parent_other h
  unfold setParent at h
  by_cases hnp : parentOf heap c = some p
  · rw [if_pos hnp] at h
    injection h with h
    subst h
    exact ⟨hwf, hpir, hcons⟩
  · rw [if_neg hnp] at h
    by_cases hloop : chainMem heap (heap.length + 1) p c = true
    · rw [if_pos hloop] at h
      cases h
    · rw [if_neg hloop] at h
      have hloopf : chainMem heap (heap.length + 1) p c = false := Bool.eq_false_iff.mpr hloop
      injection h with h
      -- children shape of the updated heap
      have hch_ne : ∀ j, j ≠ p → childrenOf h2 j = childrenOf (detachHeap heap c) j := by
        intro j hj
        rw [← h]
        rw [childrenOf_upd_ne _ _ _ _ hj]
        exact childrenOf_upd_preserve _ _ _ _ (fun n => rfl)
      have hch_p : childrenOf h2 p = childrenOf (detachHeap heap c) p ++ [c] := by
        rw [← h]
        have hplt : p < (upd (detachHeap heap c) c
            (fun n => { n with parent := some p })).length := by
          rw [upd_length, detach_length]
          exact hp
        obtain ⟨n1, hn1⟩ := nthOpt_lt_some hplt
        have hstep2 : childrenOf (upd (detachHeap heap c) c
            (fun n => { n with parent := some p })) p = n1.children := by
          unfold childrenOf
          rw [hn1]
        have hstep3 : childrenOf (upd (detachHeap heap c) c
            (fun n => { n with parent := some p })) p = childrenOf (detachHeap heap c) p :=
          childrenOf_upd_preserve (detachHeap heap c) c p
            (fun n => { n with parent := some p }) (fun n => rfl)
        rw [childrenOf_upd_self _ hn1]
        show n1.children ++ [c] = childrenOf (detachHeap heap c) p ++ [c]
        rw [← hstep2, hstep3]
      refine ⟨?_, ?_, ?_⟩
      · -- termination
        have hbnd := wf_term_bound hwf hpir
        have htp0 : termB heap (heap.length + 1) p = true := hbnd p hp
        have htp : termB h2 (heap.length + 1) p = true :=
          walk_avoid hother (heap.length + 1) p htp0 hloopf
        intro i hi
        rw [hlen] at hi
        obtain ⟨f, hf⟩ := hwf i hi
        exact ⟨f + (heap.length + 1 + 1), term_after_set hother hcp htp f i hf⟩
      · intro i q hq
        rw [hlen]
        by_cases hic : i = c
        · subst hic
          rw [hcp] at hq
          injection hq with hq
          subst hq
          exact hp
        · rw [hother i hic] at hq
          exact hpir i q hq
      · intro i x hx
        by_cases hip : i = p
        · rw [hip] at hx ⊢
          rw [hch_p] at hx
          rcases List.mem_append.mp hx with hx1 | hx1
          · -- x is an old child of p, hence not c
            have hx0 : x ∈ childrenOf heap p := by
              cases hpar : parentOf heap c with
              | none => rw [detachHeap_none hpar] at hx1; exact hx1
              | some o =>
                have hop : o ≠ p := fun he => hnp (he ▸ hpar)
                rw [detachHeap_children hpar (hpir c o hpar) p,
                  if_neg (fun he => hop he.symm)] at hx1
                exact hx1
            have hpx := hcons p x hx0
            have hxc : x ≠ c := fun he => hnp (he ▸ hpx)
            rw [hother x hxc]
            exact hpx
          · rw [List.mem_singleton.mp hx1]
            exact hcp
        · rw [hch_ne i hip] at hx
          cases hpar : parentOf heap c with
          | none =>
            rw [detachHeap_none hpar] at hx
            have hpx := hcons i x hx
            have hxc : x ≠ c := fun he => by
              rw [he] at hpx
              rw [hpar] at hpx
              cases hpx
            rw [hother x hxc]
            exact hpx
          | some o =>
            rw [detachHeap_children hpar (hpir c o hpar) i] at hx
            by_cases hio : i = o
            · subst hio
              rw [if_pos rfl] at hx
              obtain ⟨hx0, hxc0⟩ := List.mem_filter.mp hx
              have hxc : x ≠ c := by
                intro he
                rw [he] at hxc0
                simp at hxc0
              have hpx := hcons i x hx0
              rw [hother x hxc]
              exact hpx
            · rw [if_neg hio] at hx
              have hpx := hcons i x hx
              have hxc : x ≠ c := by
                intro he
                rw [he] at hpx
                rw [hpar] at hpx
                injection hpx with hpx
                exact hio hpx.symm
              rw [hother x hxc]
              exact hpx

-- Invariant preservation through node creation and the passes -------------------

theorem nthOpt_ge_none {α : Type} {l : List α} {i : Nat} (h : l.length ≤ i) :
    nthOpt l i = none := by
  induction l generalizing i with
  | nil => cases i <;> rfl
  | cons a r ih =>
    cases i with
    | zero => cases h
    | succ j => exact ih (Nat.le_of_succ_le_succ h)

theorem parentOf_append_lt {heap : List GNode} {b : GNode} {j : Nat} (h : j < heap.length) :
    parentOf (heap ++ [b]) j = parentOf heap j := by
  unfold parentOf
  rw [nthOpt_append_left h]

theorem parentOf_append_ge {heap : List GNode} {name : String} {j : Nat}
    (h : heap.length ≤ j) : parentOf (heap ++ [{ name := name }]) j = none := by
  unfold parentOf
  rcases Nat.eq_or_lt_of_le h with rfl | hlt
  · rw [nthOpt_append_self]
  · rw [nthOpt_ge_none (by simp; omega)]

theorem childrenOf_append_lt {heap : List GNode} {b : GNode} {j : Nat}
    (h : j < heap.length) : childrenOf (heap ++ [b]) j = childrenOf heap j := by
  unfold childrenOf
  rw [nthOpt_append_left h]

theorem termB_append {heap : List GNode} {name : String} {f j : Nat}
    (h : termB heap f j = true) : termB (heap ++ [{ name := name }]) f j = true := by
  induction f generalizing j with
  | zero => cases h
  | succ f ih =>
    cases hp : parentOf heap j with
    | none =>
      refine termB_none ?_
      by_cases hj : j < heap.length
      · rw [parentOf_append_lt hj]; exact hp
      · exact parentOf_append_ge (Nat.le_of_not_lt hj)
    | some q =>
      rw [termB_some hp] at h
      have hj : j < heap.length := by
        by_contra hj
        unfold parentOf at hp
        rw [nthOpt_ge_none (Nat.le_of_not_lt hj)] at hp
        cases hp
      rw [termB_some (by rw [parentOf_append_lt hj]; exact hp)]
      exact ih h

theorem append_bare_inv {heap : List GNode} (name : String)
    (hwf : ∀ i, i < heap.length → ∃ f, termB heap f i = true)
    (hpir : ∀ i q, parentOf heap i = some q → q < heap.length)
    (hcons : ∀ i x, x ∈ childrenOf heap i → parentOf heap x = some i) :
    (∀ i, i < (heap ++ [({ name := name } : GNode)]).length →
      ∃ f, termB (heap ++ [({ name := name } : GNode)]) f i = true) ∧
    (∀ i q, parentOf (heap ++ [({ name := name } : GNode)]) i = some q →
      q < (heap ++ [({ name := name } : GNode)]).length) ∧
    (∀ i x, x ∈ childrenOf (heap ++ [({ name := name } : GNode)]) i →
      parentOf (heap ++ [({ name := name } : GNode)]) x = some i) := by
  refine ⟨?_, ?_, ?_⟩
  · intro i hi
    by_cases hlt : i < heap.length
    · obtain ⟨f, hf⟩ := hwf i hlt
      exact ⟨f, termB_append hf⟩
    · exact ⟨1, termB_none (parentOf_append_ge (Nat.le_of_not_lt hlt))⟩
  · intro i q hq
    by_cases hlt : i < heap.length
    · rw [parentOf_append_lt hlt] at hq
      have := hpir i q hq
      simp
      omega
    · rw [parentOf_append_ge (Nat.le_of_not_lt hlt)] at hq
      cases hq
  · intro i x hx
    by_cases hlt : i < heap.length
    · rw [childrenOf_append_lt hlt] at hx
      have hpx := hcons i x hx
      have hxlt : x < heap.length := by
        by_contra hc
        unfold parentOf at hpx
        rw [nthOpt_ge_none (Nat.le_of_not_lt hc)] at hpx
        cases hpx
      rw [parentOf_append_lt hxlt]
      exact hpx
    · unfold childrenOf at hx
      rcases Nat.eq_or_lt_of_le (Nat.le_of_not_lt hlt) with rfl | hgt
      · rw [nthOpt_append_self] at hx
        cases hx
      · rw [nthOpt_ge_none (by simp; omega)] at hx
        cases hx

theorem termB_congr {h1 h2 : List GNode}
    (hp : ∀ j, parentOf h2 j = parentOf h1 j) :
    ∀ f j, termB h1 f j = true → termB h2 f j = true := by
  intro f
  induction f with
  | zero => intro j h; cases h
  | succ f ih =>
    intro j h
    cases hq : parentOf h1 j with
    | none => exact termB_none (by rw [hp j]; exact hq)
    | some q =>
      rw [termB_some hq] at h
      rw [termB_some (by rw [hp j]; exact hq)]
      exact ih q h

theorem get_node_inv {st st1 : BState} {name : String} {i1 : Nat}
    (hinv : TreeInv st) (h : get_node st name = (st1, i1)) :
    TreeInv st1 ∧ i1 < st1.heap.length ∧ st.heap.length ≤ st1.heap.length := by
  rcases get_node_cases st name with ⟨i0, hg0, hge⟩ | ⟨hg0, hge⟩
  · rw [hge] at h
    obtain ⟨he1, he2⟩ := Prod.mk.inj h
    rw [← he1, ← he2]
    obtain ⟨node, hn, _⟩ := hinv.reg (name, i0) (aget_mem hg0)
    exact ⟨hinv, nthOpt_some_lt hn, le_refl _⟩
  · rw [hge] at h
    obtain ⟨he1, he2⟩ := Prod.mk.inj h
    subst he2
    obtain ⟨hwf2, hpir2, hcons2⟩ := append_bare_inv name hinv.wf hinv.pir hinv.cons
    have hreg2 : RegOk st1 := by
      rw [← he1]
      intro pr hpr
      rcases mem_aset hpr with ⟨hold, _⟩ | rfl
      · obtain ⟨node, hn, hname⟩ := hinv.reg pr hold
        exact ⟨node, by rw [nthOpt_append_left (nthOpt_some_lt hn)]; exact hn, hname⟩
      · exact ⟨{ name := name }, nthOpt_append_self _ _, rfl⟩
    refine ⟨⟨?_, ?_, ?_, hreg2⟩, ?_, ?_⟩
    · rw [← he1]; exact hwf2
    · rw [← he1]; exact hpir2
    · rw [← he1]; exact hcons2
    · rw [← he1]; simp
    · rw [← he1]; simp

theorem pass2Row_shape (st : BState) (row : Row) (st2 : BState)
    (h : pass2Row st row = .ok st2) :
    st2.registry = st.registry ∧ ∃ i f, st2.heap = upd st.heap i f ∧
      (∀ n : GNode, (f n).children = n.children ∧ (f n).parent = n.parent ∧
        (f n).name = n.name) := by
  unfold pass2Row at h
  cases hsp : split_process (strip_process row.process) with
  | error e => rw [hsp] at h; cases h
  | ok s12 =>
    obtain ⟨s1, s2⟩ := s12
    rw [hsp] at h
    simp only [] at h
    cases hg : aget st.registry s2 with
    | none => rw [hg] at h; cases h
    | some it =>
      rw [hg] at h
      simp only [] at h
      cases hn : nthOpt st.heap it with
      | none => rw [hn] at h; cases h
      | some node =>
        rw [hn] at h
        simp only [] at h
        cases hkw : split_params row.params with
        | error e => rw [hkw] at h; cases h
        | ok kw0 =>
          rw [hkw] at h
          simp only [] at h
          cases hpar : node.parent with
          | none =>
            rw [hpar] at h
            simp only [] at h
            injection h with h
            subst h
            exact ⟨rfl, it, _, rfl, fun n => ⟨rfl, rfl, rfl⟩⟩
          | some ip =>
            rw [hpar] at h
            simp only [] at h
            cases hpn : nthOpt st.heap ip with
            | none => rw [hpn] at h; cases h
            | some pnode =>
              rw [hpn] at h
              simp only [] at h
              injection h with h
              subst h
              exact ⟨rfl, it, _, rfl, fun n => ⟨rfl, rfl, rfl⟩⟩

theorem pass2Row_inv {st st2 : BState} {row : Row}
    (hinv : TreeInv st) (h : pass2Row st row = .ok st2) : TreeInv st2 := by
  obtain ⟨hrg, i, f, hh, hf⟩ := pass2Row_shape st row st2 h
  have hpar : ∀ j, parentOf st2.heap j = parentOf st.heap j := by
    intro j
    rw [hh]
    exact parentOf_upd_preserve _ _ _ _ (fun n => (hf n).2.1)
  have hch : ∀ j, childrenOf st2.heap j = childrenOf st.heap j := by
    intro j
    rw [hh]
    exact childrenOf_upd_preserve _ _ _ _ (fun n => (hf n).1)
  have hlen : st2.heap.length = st.heap.length := by
    rw [hh]
    exact upd_length _ _ _
  have hnm : ∀ j, (nthOpt st2.heap j).map GNode.name = (nthOpt st.heap j).map GNode.name := by
    intro j
    rw [hh]
    exact upd_map_preserve GNode.name _ _ _ _ (fun n => (hf n).2.2)
  refine ⟨?_, ?_, ?_, ?_⟩
  · intro j hj
    rw [hlen] at hj
    obtain ⟨g, hg⟩ := hinv.wf j hj
    exact ⟨g, termB_congr hpar g j hg⟩
  · intro j q hq
    rw [hpar j] at hq
    rw [hlen]
    exact hinv.pir j q hq
  · intro j x hx
    rw [hch j] at hx
    rw [hpar x]
    exact hinv.cons j x hx
  · intro pr hpr
    rw [hrg] at hpr
    obtain ⟨node, hn, hname⟩ := hinv.reg pr hpr
    have hm := hnm pr.2
    rw [hn] at hm
    cases hend : nthOpt st2.heap pr.2 with
    | none => rw [hend] at hm; cases hm
    | some node2 =>
      rw [hend] at hm
      injection hm with hm
      exact ⟨node2, rfl, by rw [hm, hname]⟩

theorem pass1Row_inv {st st2 : BState} {row : Row}
    (hinv : TreeInv st) (h : pass1Row st row = .ok st2) : TreeInv st2 := by
  unfold pass1Row at h
  cases hcond : (decide (row.process = "") || !hasArrow row.process) with
  | true =>
    rw [hcond] at h
    simp only [if_true] at h
    injection h with h
    subst h
    exact hinv
  | false =>
    rw [hcond] at h
    simp only [Bool.false_eq_true, if_false] at h
    cases hsp : split_process (strip_process row.process) with
    | error e => rw [hsp] at h; cases h
    | ok s12 =>
      obtain ⟨s1, s2⟩ := s12
      rw [hsp] at h
      simp only [] at h
      by_cases hs1 : s1 = ""
      · rw [if_pos hs1] at h
        simp only [new_node] at h
        injection h with h
        subst h
        obtain ⟨hwf2, hpir2, hcons2⟩ := append_bare_inv s2 hinv.wf hinv.pir hinv.cons
        refine ⟨hwf2, hpir2, hcons2, ?_⟩
        intro pr hpr
        rcases mem_aset hpr with ⟨hold, _⟩ | rfl
        · obtain ⟨node, hn, hname⟩ := hinv.reg pr hold
          exact ⟨node, by rw [nthOpt_append_left (nthOpt_some_lt hn)]; exact hn, hname⟩
        · exact ⟨{ name := s2 }, nthOpt_append_self _ _, rfl⟩
      · rw [if_neg hs1] at h
        rcases hgq : get_node st s1 with ⟨stq, ip⟩
        obtain ⟨hinvq, hiplt, hlenq⟩ := get_node_inv hinv hgq
        rw [hgq] at h
        dsimp only at h
        rcases hgr : get_node stq s2 with ⟨str2, ic⟩
        obtain ⟨hinvr, hiclt, hlenr⟩ := get_node_inv hinvq hgr
        rw [hgr] at h
        dsimp only at h
        cases hsep : setParent str2.heap ic ip with
        | error e => rw [hsep] at h; cases h
        | ok hp =>
          rw [hsep] at h
          simp only [] at h
          injection h with h
          subst h
          have hiplt2 : ip < str2.heap.length := Nat.lt_of_lt_of_le hiplt hlenr
          obtain ⟨hwf2, hpir2, hcons2⟩ :=
            setParent_inv hinvr.wf hinvr.pir hinvr.cons hiclt hiplt2 hsep
          have hlen2 : hp.length = str2.heap.length := (setParent_ok hiclt hsep).2.1
          have hnames := (setParent_ok hiclt hsep).2.2
          refine ⟨hwf2, hpir2, hcons2, ?_⟩
          intro pr hpr
          obtain ⟨node, hn, hname⟩ := hinvr.reg pr hpr
          have hm := hnames pr.2
          rw [hn] at hm
          cases hend : nthOpt hp pr.2 with
          | none => rw [hend] at hm; cases hm
          | some node2 =>
            rw [hend] at hm
            injection hm with hm
            exact ⟨node2, rfl, by rw [hm, hname]⟩

theorem tree_inv_empty : TreeInv {} := by
  refine ⟨?_, ?_, ?_, regok_empty⟩
  · intro i hi
    cases hi
  · intro i q hq
    unfold parentOf at hq
    rw [nthOpt_ge_none (by simp)] at hq
    cases hq
  · intro i x hx
    unfold childrenOf at hx
    rw [nthOpt_ge_none (by simp)] at hx
    cases hx

theorem pass1_fold_inv (rows : List Row) :
    ∀ st0 st : BState, TreeInv st0 → List.foldlM pass1Row st0 rows = .ok st →
    TreeInv st := by
  induction rows with
  | nil =>
    intro st0 st h0 h
    injection h with h
    subst h
    exact h0
  | cons a l ih =>
    intro st0 st h0 h
    rw [List.foldlM_cons] at h
    cases ha : pass1Row st0 a with
    | error e => rw [ha] at h; cases h
    | ok st1 =>
      rw [ha] at h
      rw [show (Except.ok st1 >>= fun s => List.foldlM pass1Row s l) =
        List.foldlM pass1Row st1 l from rfl] at h
      exact ih st1 st (pass1Row_inv h0 ha) h

theorem pass2_fold_inv (rows : List Row) :
    ∀ st0 st : BState, TreeInv st0 → List.foldlM pass2Row st0 rows = .ok st →
    TreeInv st := by
  induction rows with
  | nil =>
    intro st0 st h0 h
    injection h with h
    subst h
    exact h0
  | cons a l ih =>
    intro st0 st h0 h
    rw [List.foldlM_cons] at h
    cases ha : pass2Row st0 a with
    | error e => rw [ha] at h; cases h
    | ok st1 =>
      rw [ha] at h
      rw [show (Except.ok st1 >>= fun s => List.foldlM pass2Row s l) =
        List.foldlM pass2Row st1 l from rfl] at h
      exact ih st1 st (pass2Row_inv h0 ha) h

theorem build_tree_inv {rows : List Row} {root : Nat} {st : BState}
    (h : build_tree rows = .ok (root, st)) :
    TreeInv st ∧ parentOf st.heap root = none ∧ root < st.heap.length := by
  cases hbp : buildPasses rows with
  | error e =>
    rw [show build_tree rows = .error e by simp only [build_tree, hbp]] at h
    cases h
  | ok stp =>
    have hbt : build_tree rows = validate_root stp := by
      simp only [build_tree, hbp]
    rw [hbt] at h
    have hinv : TreeInv stp := by
      unfold buildPasses at hbp
      cases h1 : List.foldlM pass1Row {} rows with
      | error e => rw [h1] at hbp; cases hbp
      | ok stA =>
        rw [h1] at hbp
        simp only [] at hbp
        exact pass2_fold_inv rows stA stp (pass1_fold_inv rows {} stA tree_inv_empty h1) hbp
    unfold validate_root at h
    by_cases hl : (rootsOf stp).length > 1
    · rw [if_pos hl] at h
      cases h
    · rw [if_neg hl] at h
      cases hro : rootsOf stp with
      | nil => rw [hro] at h; cases h
      | cons r rs =>
        rw [hro] at h
        simp only [] at h
        injection h with h
        obtain ⟨hr, hst⟩ := Prod.mk.inj h
        rw [← hr, ← hst]
        have hmem : r ∈ rootsOf stp := by
          rw [hro]
          exact List.mem_cons_self _ _
        unfold rootsOf at hmem
        obtain ⟨hmem2, hprop⟩ := List.mem_filter.mp hmem
        obtain ⟨pr, hpr, hpr2⟩ := List.mem_map.mp hmem2
        have hpar : parentOf stp.heap r = none := of_decide_eq_true hprop
        obtain ⟨node, hn, _⟩ := hinv.reg pr hpr
        rw [hpr2] at hn
        exact ⟨hinv, hpar, nthOpt_some_lt hn⟩

-- Level structure of the traversal ---------------------------------------------

theorem parentOf_some_lt {heap : List GNode} {x i : Nat}
    (h : parentOf heap x = some i) : x < heap.length := by
  unfold parentOf at h
  cases hn : nthOpt heap x with
  | none => rw [hn] at h; cases h
  | some n => exact nthOpt_some_lt hn

theorem iterNext_succ_right (heap : List GNode) :
    ∀ k lvl, iterNext heap (k + 1) lvl = nextLevel heap (iterNext heap k lvl) := by
  intro k
  induction k with
  | zero => intro lvl; rfl
  | succ k ih =>
    intro lvl
    rw [show iterNext heap (k + 1 + 1) lvl = iterNext heap (k + 1) (nextLevel heap lvl)
      from rfl]
    rw [ih (nextLevel heap lvl)]
    rfl

theorem levels_depth {heap : List GNode} {root : Nat}
    (hwf : ∀ i, i < heap.length → ∃ f, termB heap f i = true)
    (hpir : ∀ a q, parentOf heap a = some q → q < heap.length)
    (hcons : ∀ i x, x ∈ childrenOf heap i → parentOf heap x = some i)
    (hroot : parentOf heap root = none) :
    ∀ k x, x ∈ iterNext heap k [root] → depthB heap (heap.length + 1) x = some k := by
  intro k
  induction k with
  | zero =>
    intro x hx
    rcases List.mem_singleton.mp hx with rfl
    exact depthB_none hroot
  | succ k ih =>
    intro x hx
    rw [iterNext_succ_right] at hx
    obtain ⟨i, hi, hxi⟩ := List.mem_flatMap.mp hx
    have hpx := hcons i x hxi
    have hdi := ih i hi
    have hdx2 := depthB_step hpx hdi
    have hxlt : x < heap.length := parentOf_some_lt hpx
    have hb := depth_bound hpir hxlt hdx2
    exact depthB_shrink hdx2 (by omega)

theorem level_end {heap : List GNode} {root : Nat}
    (hwf : ∀ i, i < heap.length → ∃ f, termB heap f i = true)
    (hpir : ∀ a q, parentOf heap a = some q → q < heap.length)
    (hcons : ∀ i x, x ∈ childrenOf heap i → parentOf heap x = some i)
    (hroot : parentOf heap root = none) (hpos : 0 < heap.length) :
    iterNext heap heap.length [root] = [] := by
  by_contra hne
  obtain ⟨x, hx⟩ := List.exists_mem_of_ne_nil _ hne
  have hd := levels_depth hwf hpir hcons hroot heap.length x hx
  obtain ⟨k, hk⟩ : ∃ k, heap.length = k + 1 := ⟨heap.length - 1, by omega⟩
  rw [hk] at hx
  rw [iterNext_succ_right] at hx
  obtain ⟨i, hi, hxi⟩ := List.mem_flatMap.mp hx
  have hpx := hcons i x hxi
  have hxlt : x < heap.length := parentOf_some_lt hpx
  have hb := depth_bound hpir hxlt hd
  omega

theorem levelIter_join (heap : List GNode) :
    ∀ f lvl, levelIter heap f lvl = (levelsFrom heap f lvl).flatten := by
  intro f
  induction f with
  | zero => intro lvl; rfl
  | succ f ih =>
    intro lvl
    by_cases hl : lvl = []
    · rw [levelIter, levelsFrom, if_pos hl, if_pos hl]
      rfl
    · rw [levelIter, levelsFrom, if_neg hl, if_neg hl]
      rw [List.flatten_cons]
      rw [ih]

theorem levelsFrom_nil (heap : List GNode) {g lvl} (hg : 0 < g)
    (h : levelsFrom heap g lvl = []) : lvl = [] := by
  obtain ⟨g2, rfl⟩ : ∃ g2, g = g2 + 1 := ⟨g - 1, by omega⟩
  rw [levelsFrom] at h
  by_cases hl : lvl = []
  · exact hl
  · rw [if_neg hl] at h
    cases h

theorem levelsOK_levelsFrom (heap : List GNode) :
    ∀ f lvl, iterNext heap f lvl = [] → levelsOK heap (levelsFrom heap (f + 1) lvl) := by
  intro f
  induction f with
  | zero =>
    intro lvl h
    have hl : lvl = [] := h
    rw [hl, levelsFrom, if_pos rfl]
    trivial
  | succ f ih =>
    intro lvl h
    by_cases hl : lvl = []
    · rw [hl, levelsFrom, if_pos rfl]
      trivial
    · rw [levelsFrom, if_neg hl]
      have hnext : iterNext heap f (nextLevel heap lvl) = [] := h
      have hok := ih (nextLevel heap lvl) hnext
      cases hrest : levelsFrom heap (f + 1) (nextLevel heap lvl) with
      | nil =>
        have hnl : nextLevel heap lvl = [] := levelsFrom_nil heap (by omega) hrest
        exact hnl
      | cons l2 r =>
        have hl2 : l2 = nextLevel heap lvl := by
          rw [levelsFrom] at hrest
          by_cases hn2 : nextLevel heap lvl = []
          · rw [if_pos hn2] at hrest
            cases hrest
          · rw [if_neg hn2] at hrest
            exact (List.cons.inj hrest).1.symm
        rw [hrest] at hok
        exact ⟨hl2, hok⟩

theorem levelsOK_closed {heap : List GNode} :
    ∀ ls, levelsOK heap ls → ∀ l ∈ ls, ∀ i ∈ l, ∀ x ∈ childrenOf heap i, x ∈ ls.flatten := by
  intro ls
  induction ls with
  | nil => intro _ l hl; cases hl
  | cons l0 tail ih =>
    intro hok l hl i hil x hx
    cases tail with
    | nil =>
      rcases List.mem_singleton.mp hl with rfl
      have hok2 : nextLevel heap l = [] := hok
      have hxn : x ∈ nextLevel heap l := List.mem_flatMap.mpr ⟨i, hil, hx⟩
      rw [hok2] at hxn
      cases hxn
    | cons l2 r =>
      obtain ⟨heq, hrec⟩ := hok
      rcases List.mem_cons.mp hl with rfl | hl2
      · have hxn : x ∈ nextLevel heap l := List.mem_flatMap.mpr ⟨i, hil, hx⟩
        rw [← heq] at hxn
        rw [List.flatten_cons]
        exact List.mem_append.mpr (Or.inr (by
          rw [List.flatten_cons]
          exact List.mem_append.mpr (Or.inl hxn)))
      · have := ih hrec l hl2 i hil x hx
        rw [List.flatten_cons]
        exact List.mem_append.mpr (Or.inr this)

-- Claim C8 --------------------------------------------------------------------

/-- C8: for every tree returned by `build_tree`, `traverse_tree` yields a
finite level-order sequence (a plain list in this embedding, and a pure
function of the tree, so any number of fresh traversals yield the same
sequence): it starts with the root, decomposes into consecutive levels where
each level is exactly the concatenated children of the previous one and the
last level is childless, and it is closed under children — every child of a
yielded node is yielded, in the level after its parent's and hence before any
grandchild. -/
theorem c8_level_order_traversal (rows : List Row) (root : Nat) (st : BState)
    (h : build_tree rows = .ok (root, st)) :
    (traverse_tree st root).head? = some root ∧
    (∀ i ∈ traverse_tree st root, ∀ x ∈ childrenOf st.heap i,
      x ∈ traverse_tree st root) ∧
    ∃ ls : List (List Nat), traverse_tree st root = ls.flatten ∧
      ls.head? = some [root] ∧ levelsOK st.heap ls := by
  obtain ⟨hinv, hroot, hrlt⟩ := build_tree_inv h
  have hpos : 0 < st.heap.length := Nat.lt_of_le_of_lt (Nat.zero_le root) hrlt
  have hend : iterNext st.heap st.heap.length [root] = [] :=
    level_end hinv.wf hinv.pir hinv.cons hroot hpos
  have hjoin : traverse_tree st root =
      (levelsFrom st.heap (st.heap.length + 1) [root]).flatten :=
    levelIter_join st.heap (st.heap.length + 1) [root]
  have hOK : levelsOK st.heap (levelsFrom st.heap (st.heap.length + 1) [root]) :=
    levelsOK_levelsFrom st.heap st.heap.length [root] hend
  have hshape : levelsFrom st.heap (st.heap.length + 1) [root] =
      [root] :: levelsFrom st.heap st.heap.length (nextLevel st.heap [root]) := by
    rw [levelsFrom]
    rw [if_neg (by simp)]
  refine ⟨?_, ?_, levelsFrom st.heap (st.heap.length + 1) [root], hjoin, ?_, hOK⟩
  · rw [hjoin, hshape]
    rfl
  · intro i hi x hx
    rw [hjoin] at hi ⊢
    obtain ⟨l, hl, hil⟩ := List.mem_flatten.mp hi
    exact levelsOK_closed _ hOK l hl i hil x hx
  · rw [hshape]
    rfl

/-- C8 witness: the traversal of the tree built from `rows9` starts at the
root, is children-closed, and decomposes into levels. -/
theorem c8_witness :
    (traverse_tree (builtState rows9) (builtRoot rows9)).head? = some (builtRoot rows9) ∧
    (∀ i ∈ traverse_tree (builtState rows9) (builtRoot rows9),
      ∀ x ∈ childrenOf (builtState rows9).heap i,
        x ∈ traverse_tree (builtState rows9) (builtRoot rows9)) ∧
    ∃ ls : List (List Nat),
      traverse_tree (builtState rows9) (builtRoot rows9) = ls.flatten ∧
      ls.head? = some [builtRoot rows9] ∧ levelsOK (builtState rows9).heap ls :=
  c8_level_order_traversal rows9 (builtRoot rows9) (builtState rows9) (by decide)
